import Mathlib

/-!
# spellr: edit distance and the distance-bucket tree

A shallow embedding of `src/spellr.cpp`.

* C strings are `List Char` (the characters before the terminating NUL).
* `int` is `Int`; the additions of the program are taken not to overflow.
* The table `e` that `editdistance` allocates is a block of `size` cells, each
  unwritten (`none`) after `malloc`.  A load or store outside the block, or a
  load of an unwritten cell, is undefined behaviour in C; here the computation
  then yields `none`.
* `kdtree_node*` is the type `kdtree_node`, with `NULL` as a constructor; the
  in-place updates of `insert` return the updated tree.
-/

namespace Spellr

/-! ## Edit operations and the cost table -/

/-- The enum `edit_operation_type_t`. -/
inductive edit_operation_type_t
  | OP_INSERT
  | OP_DELETE
  | OP_REPLACE
  | OP_TWIDDLE
  | OP_MATCH
  | OP_COUNT
  deriving DecidableEq, Repr

/-- The struct `editcosts_t`: `cost[OP_INSERT]`, `cost[OP_DELETE]`, `cost[OP_REPLACE]`,
`cost[OP_TWIDDLE]` and `cost[OP_MATCH]`, in that order. -/
structure editcosts_t where
  insert : Int
  delete : Int
  replace : Int
  twiddle : Int
  matching : Int
  deriving DecidableEq, Repr

/-- The struct `edit_operations_t`, one cell of the table. -/
structure edit_operations_t where
  type : edit_operation_type_t
  parent : Int
  ed : Int
  deriving DecidableEq, Repr

/-- The constant `INT_MAX` of a 32-bit `int`. -/
def INT_MAX : Int := 2147483647

/-- The function `INDEX`: the cell `(i, j)` of a table with `N + 1` columns. -/
def INDEX (i j N : Int) : Int := i * (N + 1) + j

/-- The macro `MIN`. -/
def MIN (i j : Int) : Int := if i < j then i else j

/-- The macro `MIN4`. -/
def MIN4 (i j k l : Int) : Int := MIN (MIN i j) (MIN k l)

/-- The block of `size` cells behind the pointer `e`; `cell k = none` while
`e[k]` has not been written. -/
structure Table where
  size : Int
  cell : Int → Option edit_operations_t

/-- A fresh block as `malloc` returns it: nothing written. -/
def Table.malloc (size : Int) : Table := ⟨size, fun _ => none⟩

/-- Reading `e[k]`: fails outside the block and on an unwritten cell. -/
def Table.load (e : Table) (k : Int) : Option edit_operations_t :=
  if 0 ≤ k ∧ k < e.size then e.cell k else none

/-- Writing `e[k]`: fails outside the block. -/
def Table.store (e : Table) (k : Int) (c : edit_operations_t) : Option Table :=
  if 0 ≤ k ∧ k < e.size then
    some ⟨e.size, fun k' => if k' = k then some c else e.cell k'⟩
  else none

/-- The loop `for (k = start; ...; ++k) body` run for `count` iterations. -/
def forLoop {σ : Type} (body : Nat → σ → Option σ) : Nat → Nat → σ → Option σ
  | 0, _, s => some s
  | count + 1, k, s => (body k s).bind (forLoop body count (k + 1))

/-- The body of the inner loop of `calculate_ed` (source lines 90-140) at the cell
`(i, j)`, `1 ≤ i` and `1 ≤ j`. -/
def calculate_ed_cell (p q : List Char) (N : Nat) (costs : editcosts_t) (i j : Nat)
    (e : Table) : Option Table := do
  let pi ← p[i]?
  let qj ← q[j]?
  if pi = qj then
    let d ← e.load (INDEX ((i : Int) - 1) ((j : Int) - 1) N)
    e.store (INDEX i j N) ⟨.OP_MATCH, INDEX ((i : Int) - 1) ((j : Int) - 1) N, d.ed⟩
  else
    let del ← if i > 0 then (e.load (INDEX ((i : Int) - 1) j N)).map (fun c => c.ed + costs.delete)
      else some INT_MAX
    let ins ← if j > 0 then (e.load (INDEX i ((j : Int) - 1) N)).map (fun c => c.ed + costs.insert)
      else some INT_MAX
    let rep ← (e.load (INDEX ((i : Int) - 1) ((j : Int) - 1) N)).map (fun c => c.ed + costs.replace)
    let pi1 ← p[i - 1]?
    let qj1 ← q[j - 1]?
    let twid ← if i > 0 ∧ j > 0 ∧ qj = pi1 ∧ qj1 = pi then
        (e.load (INDEX ((i : Int) - 2) ((j : Int) - 2) N)).map (fun c => c.ed + costs.twiddle)
      else some INT_MAX
    let minop := MIN4 del ins rep twid
    if minop = del then
      e.store (INDEX i j N) ⟨.OP_DELETE, INDEX ((i : Int) - 1) j N, minop⟩
    else if minop = ins then
      e.store (INDEX i j N) ⟨.OP_INSERT, INDEX i ((j : Int) - 1) N, minop⟩
    else if minop = rep then
      e.store (INDEX i j N) ⟨.OP_REPLACE, INDEX ((i : Int) - 1) ((j : Int) - 1) N, minop⟩
    else
      e.store (INDEX i j N) ⟨.OP_TWIDDLE, INDEX ((i : Int) - 2) ((j : Int) - 2) N, minop⟩

/-- The part of `calculate_ed` that fills the table (source lines 69-142): the origin,
row 0, column 0, then the cells `(i, j)` row by row. -/
def calculate_ed_fill (p q : List Char) (e : Table) (M N : Nat) (costs : editcosts_t) :
    Option Table := do
  let e ← e.store 0 ⟨.OP_COUNT, -1, 0⟩
  let e ← forLoop (fun k e => e.store (INDEX 0 k N) ⟨.OP_INSERT, INDEX 0 ((k : Int) - 1) N, k⟩) N 1 e
  let e ← forLoop (fun k e => e.store (INDEX k 0 N) ⟨.OP_DELETE, INDEX ((k : Int) - 1) 0 N, k⟩) M 1 e
  forLoop (fun i e => forLoop (fun j e => calculate_ed_cell p q N costs i j e) N 1 e) M 1 e

/-- The function `calculate_ed`.  A pointer argument is `none` when it is `NULL`.
The result is `none` when the run leaves the block `e`. -/
def calculate_ed (p q : Option (List Char)) (e : Option Table) (M N : Int)
    (costs : Option editcosts_t) : Option Int :=
  match p, q, e, costs with
  | some p, some q, some e, some costs =>
    if M < 0 ∨ N < 0 then some (-1)
    else if M = 0 then some N
    else if N = 0 then some M
    else do
      let e ← calculate_ed_fill p q e M.toNat N.toNat costs
      let c ← e.load (INDEX M N N)
      pure c.ed
  | _, _, _, _ => some (-1)

/-- The local `costs` of `editdistance`: every entry set to 1. -/
def unit_costs : editcosts_t := ⟨1, 1, 1, 1, 1⟩

/-- The function `editdistance`; `costs_in = none` is the default argument `NULL`.
The buffers `p_` and `q_` hold a blank, the string and the terminating NUL; the table
has `(strlen p + 1) * (strlen q + 1)` cells. -/
def editdistance (p q : List Char) (costs_in : Option editcosts_t) : Option Int :=
  let m : Int := (p.length : Int) + 2
  let n : Int := (q.length : Int) + 2
  let p_ := ' ' :: (p ++ [Char.ofNat 0])
  let q_ := ' ' :: (q ++ [Char.ofNat 0])
  let m := m - 1
  let n := n - 1
  let e := Table.malloc (m * n)
  calculate_ed (some p_) (some q_) (some e) (m - 1) (n - 1)
    (some (match costs_in with | some c => c | none => unit_costs))

/-- The function `editdistance_wrapper`. -/
def editdistance_wrapper (p q : List Char) : Option Int := editdistance p q none

/-! ## The tree -/

/-- The enum constant `KDTREE_CHILD_NODES`: the number of child slots of a node, the
`16` of `Fin 16` below. -/
def KDTREE_CHILD_NODES : Nat := 16

/-- The enum constant `MAXIMUM_SEARCH_RESULTS`. -/
def MAXIMUM_SEARCH_RESULTS : Int := 8

/-- A `kdtree_node*`: `NULL`, or a node with its string `s` and its array
`children[KDTREE_CHILD_NODES]`. -/
inductive kdtree_node
  | NULL : kdtree_node
  | node (s : List Char) (children : Fin 16 → kdtree_node) : kdtree_node

/-- The type `distance_function`; `none` when the call has undefined behaviour. -/
abbrev distance_function := List Char → List Char → Option Int

/-- The test `r->children[l]` of a pointer for being non-null. -/
def kdtree_node.nonnull : kdtree_node → Bool
  | .NULL => false
  | .node _ _ => true

/-- The method `allocate_kdtree_node`. -/
def allocate_kdtree_node (s : List Char) : kdtree_node := .node s (fun _ => .NULL)

/-- The class `kdtree`: its members `root` and `f`. -/
structure kdtree where
  root : kdtree_node
  f : distance_function

/-- The constructor `kdtree(s, editdistance_function)`. -/
def kdtree.new (s : List Char) (editdistance_function : distance_function) : kdtree :=
  ⟨allocate_kdtree_node s, editdistance_function⟩

/-- The method `kdtree_insert_recursive`, returning the node `r` as updated.  It is
never called on `NULL`. -/
def kdtree_insert_recursive (f : distance_function) : kdtree_node → List Char → Option kdtree_node
  | .NULL, _ => some .NULL
  | .node s children, inp =>
    match f s inp with
    | none => none
    | some d =>
      if h : 0 ≤ d ∧ d < 16 then
        let l : Fin 16 := ⟨d.toNat, by omega⟩
        if (children l).nonnull then
          match kdtree_insert_recursive f (children l) inp with
          | none => none
          | some c => some (.node s (Function.update children l c))
        else
          some (.node s (Function.update children l (allocate_kdtree_node inp)))
      else some (.node s children)

/-- The method `insert`. -/
def kdtree.insert (t : kdtree) (inp : List Char) : Option kdtree :=
  (kdtree_insert_recursive t.f t.root inp).map (fun r => ⟨r, t.f⟩)

/-- An event of a run of `search`, recorded as instrumentation: a call `f(s, query)` of
the distance function, or a write `result[k] = s`. -/
inductive search_event
  | call (s query : List Char)
  | write (k : Nat) (s : List Char)
  deriving DecidableEq, Repr

/-- What a run of `search` has done so far: the caller's array `result` (`result k = none`
while `result[k]` has not been written), the counter `i`, and the log of the events of the
run, latest first. -/
structure search_state where
  result : Nat → Option (List Char)
  i : Nat
  log : List search_event

/-- The method `kdtree_search_recursive`; `N` is the limit `m_`.  The loop
`for (l = d - n; l <= d + n; ++l)` does nothing unless `0 ≤ l < 16`, so it is run
over `l = 0, ..., 15`, in the same ascending order, with the test `d - n ≤ l ≤ d + n`.
It is never called on `NULL`. -/
def kdtree_search_recursive (f : distance_function) (query : List Char) (n : Int) (N : Int) :
    kdtree_node → search_state → Option search_state
  | .NULL, st => some st
  | .node s children, st =>
    match f s query with
    | none => none
    | some d =>
      let st : search_state := ⟨st.result, st.i, .call s query :: st.log⟩
      if (st.i : Int) ≥ N then some st
      else
        let st : search_state :=
          if d ≤ n then
            ⟨fun k => if k = st.i then some s else st.result k, st.i + 1, .write st.i s :: st.log⟩
          else st
        forLoop (fun l st =>
          if h : l < 16 then
            if d - n ≤ (l : Int) ∧ (l : Int) ≤ d + n ∧ (children ⟨l, h⟩).nonnull then
              kdtree_search_recursive f query n N (children ⟨l, h⟩) st
            else some st
          else some st) 16 0 st

/-- The method `search`: the final state of the run; the value returned is its `i`. -/
def kdtree.search (t : kdtree) (query : List Char) (n : Int) (m : Int) : Option search_state :=
  let m_ : Int := if m ≤ 0 ∨ m > MAXIMUM_SEARCH_RESULTS then MAXIMUM_SEARCH_RESULTS else m
  kdtree_search_recursive t.f query n m_ t.root ⟨fun _ => none, 0, []⟩


/-! ## Reference functions used to state the properties -/

/-- The least of `m` and an optional further candidate. -/
def minOpt (m : Nat) : Option Nat → Nat
  | some t => min m t
  | none => m

/-- The recurrence of `calculate_ed` read as a function of the two prefixes, each given
with its last character first.  With `tw = true` it is the recurrence under unit costs;
with `tw = false` the twiddle candidate is left out. -/
def adist (tw : Bool) : List Char → List Char → Nat
  | [], b => b.length
  | _ :: a, [] => a.length + 1
  | x :: a, y :: b =>
    if x = y then adist tw a b
    else 1 + minOpt (min (min (adist tw a (y :: b)) (adist tw (x :: a) b)) (adist tw a b))
      (match a, b with
       | x' :: a', y' :: b' => if tw = true ∧ y = x' ∧ y' = x then some (adist tw a' b') else none
       | _, _ => none)
termination_by a b => a.length + b.length
decreasing_by all_goals simp_wf; all_goals omega

/-- The twiddle candidate of `adist` at `x :: a` and `y :: b`, when there is one. -/
def twiddle_cand (tw : Bool) (x y : Char) : List Char → List Char → Option Nat
  | x' :: a', y' :: b' => if tw = true ∧ y = x' ∧ y' = x then some (adist tw a' b') else none
  | _, _ => none

/-- The recurrence of `calculate_ed` for an arbitrary cost table, as a function of the
two prefixes, each given with its last character first. -/
def dist (c : editcosts_t) : List Char → List Char → Int
  | [], b => b.length
  | _ :: a, [] => (a.length : Int) + 1
  | x :: a, y :: b =>
    if x = y then dist c a b
    else MIN4 (dist c a (y :: b) + c.delete) (dist c (x :: a) b + c.insert) (dist c a b + c.replace)
      (match a, b with
       | x' :: a', y' :: b' => if y = x' ∧ y' = x then dist c a' b' + c.twiddle else INT_MAX
       | _, _ => INT_MAX)
termination_by a b => a.length + b.length
decreasing_by all_goals simp_wf; all_goals omega

/-- The twiddle candidate of `dist` at `x :: a` and `y :: b`; `INT_MAX` when there is
none. -/
def dist_twiddle (c : editcosts_t) (x y : Char) : List Char → List Char → Int
  | x' :: a', y' :: b' => if y = x' ∧ y' = x then dist c a' b' + c.twiddle else INT_MAX
  | _, _ => INT_MAX

/-- The first `i` characters of `p`, the last of them first. -/
def pre (p : List Char) (i : Nat) : List Char := (p.take i).reverse

/-- The state of the table of `calculate_ed` for the strings `p` and `q` while it is
filled: the block has `(M + 1) * (N + 1)` cells, and each cell `(i, j)` that is `done`
has been written and holds the value of the recurrence for the prefixes of lengths `i`
and `j`. -/
def Filled (c : editcosts_t) (p q : List Char) (done : Nat → Nat → Prop) (e : Table) : Prop :=
  e.size = ((p.length : Int) + 1) * ((q.length : Int) + 1) ∧
  ∀ i j : Nat, i ≤ p.length → j ≤ q.length → done i j →
    ∃ cl, e.cell (INDEX i j q.length) = some cl ∧ cl.ed = dist c (pre p i) (pre q j)

/-! ## Notions used to state the properties of the tree -/

/-- The strings held by the nodes of a tree, the node itself first, then its children in
ascending bucket order. -/
def kdtree_node.strings : kdtree_node → List (List Char)
  | .NULL => []
  | .node s children => s :: (List.finRange 16).flatMap (fun l => (children l).strings)

/-- The nodes of a tree: `IsNode r x` when `x` is `r` itself, non-null, or a node below
it. -/
inductive IsNode : kdtree_node → kdtree_node → Prop
  | root (s : List Char) (children : Fin 16 → kdtree_node) :
      IsNode (.node s children) (.node s children)
  | child {s : List Char} {children : Fin 16 → kdtree_node} (l : Fin 16) {x : kdtree_node} :
      IsNode (children l) x → IsNode (.node s children) x

/-- The bucket invariant, by recursion on the tree: every string held below the child
slot `l` of a node is at distance exactly `l` from the string of that node. -/
def kdtree_node.bucketed (f : distance_function) : kdtree_node → Prop
  | .NULL => True
  | .node s children =>
    ∀ l : Fin 16, (∀ x ∈ (children l).strings, f s x = some (l.val : Int)) ∧
      (children l).bucketed f

/-- The trees that the constructor followed by calls of `insert` produces. -/
inductive Reachable (f : distance_function) : kdtree → Prop
  | new (seed : List Char) : Reachable f (kdtree.new seed f)
  | insert {t t' : kdtree} (inp : List Char) :
      Reachable f t → t.insert inp = some t' → Reachable f t'

/-- The effective result limit of `search`: `m` when `1 ≤ m ≤ 8`, otherwise 8. -/
def effective_limit (m : Int) : Int := if 1 ≤ m ∧ m ≤ 8 then m else 8

/-- Whether an event of the log is a write to `result`. -/
def search_event.is_write : search_event → Bool
  | .call _ _ => false
  | .write _ _ => true

/-- The entries of `result` that a run has written, by index. -/
def search_state.entries (st : search_state) : List (Option (List Char)) :=
  (List.range st.i).map st.result

/-- The log of a run in the order of the events. -/
def search_state.events (st : search_state) : List search_event := st.log.reverse

/-- How a run of `kdtree_search_recursive` over strings satisfying `S` changes the
state: `i` does not decrease and stays within the limit `N`, the entries below the old
`i` and from the new `i` on are untouched, each entry in between is a string satisfying
`S` whose distance to the query is at most `n`, and the log gains one write per new
entry. -/
def SearchExt (f : distance_function) (query : List Char) (n N : Int)
    (S : List Char → Prop) (st st' : search_state) : Prop :=
  st.i ≤ st'.i ∧
  (∀ k, k < st.i → st'.result k = st.result k) ∧
  (∀ k, st'.i ≤ k → st'.result k = st.result k) ∧
  ((st.i : Int) ≤ N → (st'.i : Int) ≤ N) ∧
  (∀ k, st.i ≤ k → k < st'.i →
    ∃ s, st'.result k = some s ∧ S s ∧ ∃ d, f s query = some d ∧ d ≤ n) ∧
  st'.log.countP search_event.is_write = st.log.countP search_event.is_write + (st'.i - st.i)

/-- The bucket invariant of a tree, node by node: for every node `x` of the tree and
every bucket `l` whose child slot is non-empty, every string held in that child's
subtree, the child's own string included, is at distance exactly `l` from `x.s`. -/
def kdtree.bucket_invariant (t : kdtree) : Prop :=
  ∀ (s : List Char) (children : Fin 16 → kdtree_node), IsNode t.root (.node s children) →
    ∀ l : Fin 16, (children l).nonnull = true →
      (∀ cs cch, children l = .node cs cch → t.f s cs = some (l.val : Int)) ∧
      ∀ c ∈ (children l).strings, t.f s c = some (l.val : Int)

/-- An example: the tree seeded with "cat" into which "cats" and then "bat" are inserted,
bound to `editdistance_wrapper`. -/
def example_tree : kdtree :=
  ((((kdtree.new ['c', 'a', 't'] editdistance_wrapper).insert ['c', 'a', 't', 's']).bind
    (fun t => t.insert ['b', 'a', 't'])).get (by decide))

/-! ## Notions used to state the effect of `insert` -/

/-- The tree `r'` is the tree `r` with one new leaf holding `inp` put into a child slot
that was empty; every node of `r` keeps its string and all its other child slots. -/
inductive AddLeaf (inp : List Char) : kdtree_node → kdtree_node → Prop
  | here (s : List Char) (children : Fin 16 → kdtree_node) (l : Fin 16) :
      (children l).nonnull = false →
      AddLeaf inp (.node s children)
        (.node s (Function.update children l (allocate_kdtree_node inp)))
  | deeper (s : List Char) (children : Fin 16 → kdtree_node) (l : Fin 16) (c : kdtree_node) :
      AddLeaf inp (children l) c →
      AddLeaf inp (.node s children) (.node s (Function.update children l c))

/-- The distances `f(node.s, inp)` that `kdtree_insert_recursive` computes along its
descent, in order. -/
def descent_distances (f : distance_function) : kdtree_node → List Char → Option (List Int)
  | .NULL, _ => some []
  | .node s children, inp =>
    match f s inp with
    | none => none
    | some d =>
      if h : 0 ≤ d ∧ d < 16 then
        if (children ⟨d.toNat, by omega⟩).nonnull then
          (descent_distances f (children ⟨d.toNat, by omega⟩) inp).map (fun ds => d :: ds)
        else some [d]
      else some [d]

/-- The construction of the tree in `main` (source lines 373-375): the constructor on the
first word, then `insert` on each further word in order. -/
def build_tree (f : distance_function) (seed : List Char) (words : List (List Char)) :
    Option kdtree :=
  words.foldlM (fun t w => t.insert w) (kdtree.new seed f)

/-- The traversal of `kdtree_search_recursive` with no limit, as a list: the node itself
first when its distance `d` to the query is at most `n`, then, in ascending bucket order,
the traversals of the non-empty children whose bucket index lies in `[d - n, d + n]` and
in `[0, 16)`. -/
def unlimited_traversal (f : distance_function) (query : List Char) (n : Int) :
    kdtree_node → Option (List (List Char))
  | .NULL => some []
  | .node s children =>
    match f s query with
    | none => none
    | some d =>
      forLoop (fun l acc =>
        if h : l < 16 then
          if d - n ≤ (l : Int) ∧ (l : Int) ≤ d + n ∧ (children ⟨l, h⟩).nonnull then
            (unlimited_traversal f query n (children ⟨l, h⟩)).map (fun sub => acc ++ sub)
          else some acc
        else some acc) 16 0 (if d ≤ n then [s] else [])

/-- The array `result` and the counter `i` of a state hold exactly the list `l`. -/
def search_state.holds (st : search_state) (l : List (List Char)) : Prop :=
  st.i = l.length ∧ ∀ k, st.result k = l[k]?

/-! ## The trace of operations -/

/-- The value of an enumerator of `edit_operation_type_t`. -/
def edit_operation_type_t.val : edit_operation_type_t → Nat
  | .OP_INSERT => 0
  | .OP_DELETE => 1
  | .OP_REPLACE => 2
  | .OP_TWIDDLE => 3
  | .OP_MATCH => 4
  | .OP_COUNT => 5

theorem minOpt_le_left (m : Nat) (o : Option Nat) : minOpt m o ≤ m := by
  cases o <;> simp [minOpt]

theorem adist_nil_left (tw : Bool) (b : List Char) : adist tw [] b = b.length := by
  rw [adist]

theorem adist_nil_right (tw : Bool) (a : List Char) : adist tw a [] = a.length := by
  cases a with
  | nil => rw [adist]
  | cons x a => rw [adist]; rfl

theorem adist_cons_cons (tw : Bool) (x y : Char) (a b : List Char) :
    adist tw (x :: a) (y :: b) =
      if x = y then adist tw a b
      else 1 + minOpt (min (min (adist tw a (y :: b)) (adist tw (x :: a) b)) (adist tw a b))
        (twiddle_cand tw x y a b) := by
  rw [adist.eq_def]
  simp only
  split
  · rfl
  · unfold twiddle_cand
    rfl

theorem adist_symm (tw : Bool) (a b : List Char) : adist tw a b = adist tw b a := by
  generalize hn : a.length + b.length = n
  induction n using Nat.strong_induction_on generalizing a b with
  | _ n ih =>
    cases a with
    | nil => rw [adist_nil_left, adist_nil_right]
    | cons x a =>
      cases b with
      | nil => rw [adist_nil_left, adist_nil_right]
      | cons y b =>
        simp only [List.length_cons] at hn
        rw [adist_cons_cons, adist_cons_cons]
        by_cases hxy : x = y
        · subst hxy
          rw [if_pos rfl, if_pos rfl]
          exact ih _ (by omega) a b rfl
        · rw [if_neg hxy, if_neg (Ne.symm hxy)]
          have e1 : adist tw a (y :: b) = adist tw (y :: b) a :=
            ih _ (by simp only [List.length_cons]; omega) _ _ rfl
          have e2 : adist tw (x :: a) b = adist tw b (x :: a) :=
            ih _ (by simp only [List.length_cons]; omega) _ _ rfl
          have e3 : adist tw a b = adist tw b a := ih _ (by omega) _ _ rfl
          have e4 : twiddle_cand tw x y a b = twiddle_cand tw y x b a := by
            cases a with
            | nil => cases b <;> simp [twiddle_cand]
            | cons x' a' =>
              cases b with
              | nil => simp [twiddle_cand]
              | cons y' b' =>
                simp only [List.length_cons] at hn
                have e5 : adist tw a' b' = adist tw b' a' := ih _ (by omega) _ _ rfl
                simp only [twiddle_cand, e5]
                by_cases hc : tw = true ∧ y = x' ∧ y' = x
                · rw [if_pos hc, if_pos ⟨hc.1, hc.2.2.symm, hc.2.1.symm⟩]
                · rw [if_neg hc, if_neg (fun h => hc ⟨h.1, h.2.2.symm, h.2.1.symm⟩)]
          rw [e1, e2, e3, e4, Nat.min_comm (adist tw (y :: b) a)]

theorem adist_replace_le (tw : Bool) (a b : List Char) (x y : Char) :
    adist tw (x :: a) (y :: b) ≤ adist tw a b + 1 := by
  rw [adist_cons_cons]
  split
  · omega
  · have := minOpt_le_left (min (min (adist tw a (y :: b)) (adist tw (x :: a) b)) (adist tw a b))
      (twiddle_cand tw x y a b)
    have h2 : min (min (adist tw a (y :: b)) (adist tw (x :: a) b)) (adist tw a b)
        ≤ adist tw a b := Nat.min_le_right _ _
    omega

theorem adist_le_max (tw : Bool) (a b : List Char) : adist tw a b ≤ max a.length b.length := by
  induction a generalizing b with
  | nil => simp [adist_nil_left]
  | cons x a ih =>
    cases b with
    | nil => simp [adist_nil_right]
    | cons y b =>
      have := adist_replace_le tw a b x y
      have := ih b
      simp only [List.length_cons]
      omega

/-! ## The recurrence and edit scripts -/

theorem dist_nil_left (c : editcosts_t) (b : List Char) : dist c [] b = b.length := by
  rw [dist]

theorem dist_nil_right (c : editcosts_t) (a : List Char) : dist c a [] = a.length := by
  cases a with
  | nil => rw [dist]
  | cons x a => rw [dist]; simp

theorem dist_cons_cons (c : editcosts_t) (x y : Char) (a b : List Char) :
    dist c (x :: a) (y :: b) =
      if x = y then dist c a b
      else MIN4 (dist c a (y :: b) + c.delete) (dist c (x :: a) b + c.insert)
        (dist c a b + c.replace) (dist_twiddle c x y a b) := by
  rw [dist.eq_def]
  simp only
  split
  · rfl
  · unfold dist_twiddle
    rfl

/-- A string is at distance 0 from itself, whatever the costs. -/
theorem dist_self (c : editcosts_t) (a : List Char) : dist c a a = 0 := by
  induction a with
  | nil => rw [dist_nil_left]; rfl
  | cons x a ih => rw [dist_cons_cons, if_pos rfl, ih]

/-- Under unit costs, and for strings whose length fits an `int`, the recurrence is
`adist true`. -/
theorem dist_unit (a b : List Char) (ha : (a.length : Int) ≤ INT_MAX)
    (hb : (b.length : Int) ≤ INT_MAX) : dist unit_costs a b = (adist true a b : Int) := by
  generalize hn : a.length + b.length = n
  induction n using Nat.strong_induction_on generalizing a b with
  | _ n ih =>
    cases a with
    | nil => rw [dist_nil_left, adist_nil_left]
    | cons x a =>
      cases b with
      | nil => rw [dist_nil_right, adist_nil_right]
      | cons y b =>
        simp only [List.length_cons, Nat.cast_add, Nat.cast_one] at hn ha hb
        rw [dist_cons_cons, adist_cons_cons]
        by_cases hxy : x = y
        · rw [if_pos hxy, if_pos hxy]
          exact ih _ (by omega) a b (by omega) (by omega) rfl
        · rw [if_neg hxy, if_neg hxy]
          have h1 := ih _ (by simp only [List.length_cons]; omega) a (y :: b) (by omega)
            (by simp only [List.length_cons, Nat.cast_add, Nat.cast_one]; omega) rfl
          have h2 := ih _ (by simp only [List.length_cons]; omega) (x :: a) b
            (by simp only [List.length_cons, Nat.cast_add, Nat.cast_one]; omega) (by omega) rfl
          have h3 := ih _ (by omega) a b (by omega) (by omega) rfl
          have hmax := adist_le_max true a b
          have hC : (adist true a b : Int) + 1 ≤ INT_MAX := by omega
          rw [h1, h2, h3]
          have hT : dist_twiddle unit_costs x y a b = INT_MAX ∧ twiddle_cand true x y a b = none ∨
              ∃ t : Nat, dist_twiddle unit_costs x y a b = (t : Int) + 1 ∧
                twiddle_cand true x y a b = some t := by
            cases a with
            | nil => left; cases b <;> simp [dist_twiddle, twiddle_cand]
            | cons x' a' =>
              cases b with
              | nil => left; simp [dist_twiddle, twiddle_cand]
              | cons y' b' =>
                simp only [List.length_cons, Nat.cast_add, Nat.cast_one] at hn ha hb
                have h4 := ih _ (by omega) a' b' (by omega) (by omega) rfl
                by_cases hc : y = x' ∧ y' = x
                · right
                  refine ⟨adist true a' b', ?_, ?_⟩
                  · simp only [dist_twiddle, if_pos hc, h4]; rfl
                  · simp [twiddle_cand, hc]
                · left
                  constructor
                  · simp only [dist_twiddle, if_neg hc]
                  · simp only [twiddle_cand]
                    rw [if_neg (fun h => hc h.2)]
          rw [show unit_costs.delete = 1 from rfl, show unit_costs.insert = 1 from rfl,
            show unit_costs.replace = 1 from rfl]
          rcases hT with ⟨e1, e2⟩ | ⟨t, e1, e2⟩
          · rw [e1, e2]
            simp only [MIN4, MIN, minOpt, Nat.min_def]
            split_ifs <;> push_cast <;> omega
          · rw [e1, e2]
            simp only [MIN4, MIN, minOpt, Nat.min_def]
            split_ifs <;> push_cast <;> omega

/-! ## Loops, the buffers and the table -/

theorem forLoop_total {σ : Type} (body : Nat → σ → Option σ) (I : Nat → σ → Prop)
    (count k : Nat) (s : σ) (h0 : I k s)
    (hstep : ∀ k' s', k ≤ k' → k' < k + count → I k' s' → ∃ s'', body k' s' = some s'' ∧ I (k' + 1) s'') :
    ∃ s', forLoop body count k s = some s' ∧ I (k + count) s' := by
  induction count generalizing k s with
  | zero => exact ⟨s, rfl, h0⟩
  | succ n ih =>
    obtain ⟨s1, hb, h1⟩ := hstep k s (Nat.le_refl k) (by omega) h0
    obtain ⟨s2, hl, h2⟩ := ih (k + 1) s1 h1 (fun k' s' hk hlt hI => hstep k' s' (by omega) (by omega) hI)
    refine ⟨s2, ?_, ?_⟩
    · simp only [forLoop, hb, Option.some_bind, hl]
    · have : k + 1 + n = k + (n + 1) := by omega
      rwa [this] at h2

theorem forLoop_returns {σ : Type} (body : Nat → σ → Option σ) (count k : Nat) (s : σ)
    (hstep : ∀ k' s', k' < k + count → ∃ s'', body k' s' = some s'') :
    ∃ s', forLoop body count k s = some s' := by
  obtain ⟨s', h, -⟩ := forLoop_total body (fun _ _ => True) count k s trivial
    (fun k' s' _ hlt _ => by
      obtain ⟨s'', h''⟩ := hstep k' s' hlt
      exact ⟨s'', h'', trivial⟩)
  exact ⟨s', h⟩

theorem forLoop_invariant {σ : Type} (body : Nat → σ → Option σ) (I : Nat → σ → Prop)
    (count k : Nat) (s s' : σ) (h0 : I k s)
    (hstep : ∀ k' s1 s2, k ≤ k' → k' < k + count → I k' s1 → body k' s1 = some s2 → I (k' + 1) s2)
    (hrun : forLoop body count k s = some s') : I (k + count) s' := by
  induction count generalizing k s with
  | zero =>
    simp only [forLoop, Option.some.injEq] at hrun
    subst hrun; exact h0
  | succ n ih =>
    simp only [forLoop] at hrun
    cases hb : body k s with
    | none => rw [hb] at hrun; simp at hrun
    | some s1 =>
      rw [hb, Option.some_bind] at hrun
      have h1 := hstep k s s1 (Nat.le_refl k) (by omega) h0 hb
      have h2 := ih (k + 1) s1 h1
        (fun k' t1 t2 hk hlt hI hbody => hstep k' t1 t2 (by omega) (by omega) hI hbody) hrun
      have : k + 1 + n = k + (n + 1) := by omega
      rwa [this] at h2

theorem INDEX_bounds {M N i j : Nat} (hi : i ≤ M) (hj : j ≤ N) :
    0 ≤ INDEX i j N ∧ INDEX i j N < ((M : Int) + 1) * ((N : Int) + 1) := by
  unfold INDEX
  constructor
  · positivity
  · have h1 : (i : Int) * ((N : Int) + 1) ≤ (M : Int) * ((N : Int) + 1) :=
      Int.mul_le_mul_of_nonneg_right (by exact_mod_cast hi) (by positivity)
    have h2 : (j : Int) ≤ N := by exact_mod_cast hj
    nlinarith

theorem INDEX_inj {N i j i' j' : Nat} (hj : j ≤ N) (hj' : j' ≤ N)
    (h : INDEX i j N = INDEX i' j' N) : i = i' ∧ j = j' := by
  unfold INDEX at h
  have hi : i = i' := by
    rcases Nat.lt_trichotomy i i' with hlt | heq | hgt
    · exfalso
      have h1 : ((i : Int) + 1) * ((N : Int) + 1) ≤ (i' : Int) * ((N : Int) + 1) :=
        Int.mul_le_mul_of_nonneg_right (by exact_mod_cast hlt) (by positivity)
      have h2 : (j : Int) ≤ N := by exact_mod_cast hj
      have h3 : (0 : Int) ≤ j' := by positivity
      nlinarith
    · exact heq
    · exfalso
      have h1 : ((i' : Int) + 1) * ((N : Int) + 1) ≤ (i : Int) * ((N : Int) + 1) :=
        Int.mul_le_mul_of_nonneg_right (by exact_mod_cast hgt) (by positivity)
      have h2 : (j' : Int) ≤ N := by exact_mod_cast hj'
      have h3 : (0 : Int) ≤ j := by positivity
      nlinarith
  subst hi
  refine ⟨rfl, ?_⟩
  have : (j : Int) = j' := by linarith
  exact_mod_cast this

theorem pre_zero (p : List Char) : pre p 0 = [] := by simp [pre]

theorem pre_length_self (p : List Char) : pre p p.length = p.reverse := by simp [pre]

theorem pre_succ {p : List Char} {i : Nat} {x : Char} (h : p[i]? = some x) :
    pre p (i + 1) = x :: pre p i := by
  unfold pre
  rw [List.take_succ, h]
  simp

theorem pre_length {p : List Char} {i : Nat} (h : i ≤ p.length) : (pre p i).length = i := by
  simp [pre, h]

theorem buffer_zero (p : List Char) : (' ' :: (p ++ [Char.ofNat 0]))[0]? = some ' ' := by simp

theorem buffer_succ {p : List Char} {i : Nat} (h : i < p.length) :
    (' ' :: (p ++ [Char.ofNat 0]))[i + 1]? = p[i]? := by
  rw [List.getElem?_cons_succ, List.getElem?_append_left h]

theorem getElem?_mem_of_some {p : List Char} {i : Nat} {x : Char} (h : p[i]? = some x) : x ∈ p := by
  rw [List.getElem?_eq_some] at h
  obtain ⟨hlt, rfl⟩ := h
  exact List.getElem_mem hlt

theorem Table.load_of_cell {e : Table} {k : Int} {c : edit_operations_t}
    (h0 : 0 ≤ k) (h1 : k < e.size) (hc : e.cell k = some c) : e.load k = some c := by
  unfold Table.load
  rw [if_pos ⟨h0, h1⟩, hc]

/-- Writing the value of the recurrence into the cell `(i, j)` keeps what was done and
adds this cell. -/
theorem Filled.store {c : editcosts_t} {p q : List Char} {done D : Nat → Nat → Prop}
    {e : Table} (h : Filled c p q done e) {i j : Nat} (hi : i ≤ p.length) (hj : j ≤ q.length)
    (ty : edit_operation_type_t) (par : Int) {v : Int} (hv : v = dist c (pre p i) (pre q j))
    (hd : ∀ i' j', D i' j' → done i' j' ∨ (i' = i ∧ j' = j)) :
    ∃ e', e.store (INDEX i j q.length) ⟨ty, par, v⟩ = some e' ∧ Filled c p q D e' := by
  obtain ⟨hsz, hcells⟩ := h
  have hb := INDEX_bounds hi hj
  refine ⟨⟨e.size, fun k' => if k' = INDEX i j q.length then some ⟨ty, par, v⟩ else e.cell k'⟩, ?_,
    hsz, ?_⟩
  · unfold Table.store
    rw [if_pos ⟨hb.1, by rw [hsz]; exact hb.2⟩]
  · intro i' j' hi' hj' hdone
    by_cases heq : INDEX i' j' q.length = INDEX i j q.length
    · obtain ⟨rfl, rfl⟩ := INDEX_inj hj' hj heq
      exact ⟨⟨ty, par, v⟩, by simp, hv⟩
    · rcases hd i' j' hdone with h1 | ⟨rfl, rfl⟩
      · obtain ⟨cl, hcl, hed⟩ := hcells i' j' hi' hj' h1
        exact ⟨cl, by simp only [if_neg heq, hcl], hed⟩
      · exact absurd rfl heq

theorem Filled.load {c : editcosts_t} {p q : List Char} {done : Nat → Nat → Prop}
    {e : Table} (h : Filled c p q done e) {i j : Nat} (hi : i ≤ p.length) (hj : j ≤ q.length)
    (hd : done i j) :
    ∃ cl, e.load (INDEX i j q.length) = some cl ∧ cl.ed = dist c (pre p i) (pre q j) := by
  obtain ⟨cl, hcl, hed⟩ := h.2 i j hi hj hd
  have hb := INDEX_bounds hi hj
  exact ⟨cl, Table.load_of_cell hb.1 (by rw [h.1]; exact hb.2) hcl, hed⟩

/-! ## One cell of the table -/

theorem calculate_ed_cell_eval (p q : List Char) (N : Nat) (costs : editcosts_t) (i j : Nat)
    (e : Table) (x y x' y' : Char) (c11 c10 c01 : edit_operations_t) (t22 : Int)
    (hi : 0 < i) (hj : 0 < j)
    (hx : p[i]? = some x) (hy : q[j]? = some y)
    (hx' : p[i - 1]? = some x') (hy' : q[j - 1]? = some y')
    (h11 : e.load (INDEX ((i : Int) - 1) ((j : Int) - 1) N) = some c11)
    (h10 : e.load (INDEX ((i : Int) - 1) j N) = some c10)
    (h01 : e.load (INDEX i ((j : Int) - 1) N) = some c01)
    (h22 : y = x' ∧ y' = x →
      ∃ c22, e.load (INDEX ((i : Int) - 2) ((j : Int) - 2) N) = some c22 ∧ c22.ed = t22) :
    ∃ ty par, calculate_ed_cell p q N costs i j e =
      e.store (INDEX i j N) ⟨ty, par,
        if x = y then c11.ed
        else MIN4 (c10.ed + costs.delete) (c01.ed + costs.insert) (c11.ed + costs.replace)
          (if y = x' ∧ y' = x then t22 + costs.twiddle else INT_MAX)⟩ := by
  unfold calculate_ed_cell
  simp only [hx, hy, hx', hy', h11, h10, h01, Option.bind_eq_bind, Option.some_bind, Option.map_some',
    hi, hj, if_true, gt_iff_lt, true_and]
  by_cases hxy : x = y
  · simp only [if_pos hxy]
    exact ⟨_, _, rfl⟩
  · simp only [if_neg hxy]
    by_cases hc : y = x' ∧ y' = x
    · obtain ⟨c22, hl, hed⟩ := h22 hc
      simp only [if_pos hc, hl, Option.map_some', Option.some_bind, hed]
      split_ifs <;> exact ⟨_, _, rfl⟩
    · simp only [if_neg hc, Option.some_bind]
      split_ifs <;> exact ⟨_, _, rfl⟩

theorem dist_twiddle_nil_left (c : editcosts_t) (x y : Char) (b : List Char) :
    dist_twiddle c x y [] b = INT_MAX := by
  unfold dist_twiddle; rfl

theorem dist_twiddle_nil_right (c : editcosts_t) (x y : Char) (a : List Char) :
    dist_twiddle c x y a [] = INT_MAX := by
  cases a <;> rfl

theorem dist_twiddle_cons (c : editcosts_t) (x y x' y' : Char) (a b : List Char) :
    dist_twiddle c x y (x' :: a) (y' :: b) =
      if y = x' ∧ y' = x then dist c a b + c.twiddle else INT_MAX := rfl

/-- The step of the inner loop at the cell `(i, j)`, for strings without a blank: it
succeeds and the cell receives the value of the recurrence. -/
theorem calculate_ed_cell_filled (c : editcosts_t) (p q : List Char)
    (hp : ' ' ∉ p) (hq : ' ' ∉ q) (i0 j0 : Nat) (hi : i0 < p.length) (hj : j0 < q.length)
    (e : Table)
    (h : Filled c p q (fun i' j' => i' = 0 ∨ j' = 0 ∨ i' < i0 + 1 ∨ (i' = i0 + 1 ∧ j' < j0 + 1)) e) :
    ∃ e', calculate_ed_cell (' ' :: (p ++ [Char.ofNat 0])) (' ' :: (q ++ [Char.ofNat 0]))
        q.length c (i0 + 1) (j0 + 1) e = some e' ∧
      Filled c p q
        (fun i' j' => i' = 0 ∨ j' = 0 ∨ i' < i0 + 1 ∨ (i' = i0 + 1 ∧ j' < j0 + 1 + 1)) e' := by
  obtain ⟨x, hx⟩ : ∃ x, p[i0]? = some x := ⟨p[i0], List.getElem?_eq_getElem hi⟩
  obtain ⟨y, hy⟩ : ∃ y, q[j0]? = some y := ⟨q[j0], List.getElem?_eq_getElem hj⟩
  have hxb : x ≠ ' ' := fun h' => hp (h' ▸ getElem?_mem_of_some hx)
  have hyb : y ≠ ' ' := fun h' => hq (h' ▸ getElem?_mem_of_some hy)
  have ei : (((i0 + 1 : Nat) : Int) - 1) = (i0 : Int) := by push_cast; ring
  have ej : (((j0 + 1 : Nat) : Int) - 1) = (j0 : Int) := by push_cast; ring
  obtain ⟨c11, l11, v11⟩ := h.load (i := i0) (j := j0) (by omega) (by omega)
    (by right; right; left; omega)
  obtain ⟨c10, l10, v10⟩ := h.load (i := i0) (j := j0 + 1) (by omega) (by omega)
    (by right; right; left; omega)
  obtain ⟨c01, l01, v01⟩ := h.load (i := i0 + 1) (j := j0) (by omega) (by omega)
    (by right; right; right; exact ⟨rfl, by omega⟩)
  rw [pre_succ hy] at v10
  rw [pre_succ hx] at v01
  obtain ⟨x', hx', y', hy', h22, htw⟩ : ∃ x', (' ' :: (p ++ [Char.ofNat 0]))[i0]? = some x' ∧
      ∃ y', (' ' :: (q ++ [Char.ofNat 0]))[j0]? = some y' ∧
      (y = x' ∧ y' = x → ∃ c22, e.load (INDEX (((i0 + 1 : Nat) : Int) - 2) (((j0 + 1 : Nat) : Int) - 2)
          q.length) = some c22 ∧ c22.ed = dist c (pre p (i0 - 1)) (pre q (j0 - 1))) ∧
      (if y = x' ∧ y' = x then dist c (pre p (i0 - 1)) (pre q (j0 - 1)) + c.twiddle else INT_MAX)
        = dist_twiddle c x y (pre p i0) (pre q j0) := by
    cases i0 with
    | zero =>
      refine ⟨' ', buffer_zero p, ?_⟩
      cases j0 with
      | zero =>
        refine ⟨' ', buffer_zero q, fun hc => absurd hc.1 hyb, ?_⟩
        rw [if_neg (fun hc => hyb hc.1), pre_zero, dist_twiddle_nil_left]
      | succ j1 =>
        obtain ⟨y', hy'⟩ : ∃ y', q[j1]? = some y' := by
          have hlt : j1 < q.length := by omega
          exact ⟨q[j1], List.getElem?_eq_getElem hlt⟩
        refine ⟨y', by rw [buffer_succ (by omega)]; exact hy', fun hc => absurd hc.1 hyb, ?_⟩
        rw [if_neg (fun hc => hyb hc.1), pre_zero, dist_twiddle_nil_left]
    | succ i1 =>
      obtain ⟨x', hx'⟩ : ∃ x', p[i1]? = some x' := by
        have hlt : i1 < p.length := by omega
        exact ⟨p[i1], List.getElem?_eq_getElem hlt⟩
      refine ⟨x', by rw [buffer_succ (by omega)]; exact hx', ?_⟩
      cases j0 with
      | zero =>
        refine ⟨' ', buffer_zero q, fun hc => absurd hc.2.symm hxb, ?_⟩
        rw [if_neg (fun hc => hxb hc.2.symm), pre_zero, dist_twiddle_nil_right]
      | succ j1 =>
        obtain ⟨y', hy'⟩ : ∃ y', q[j1]? = some y' := by
          have hlt : j1 < q.length := by omega
          exact ⟨q[j1], List.getElem?_eq_getElem hlt⟩
        refine ⟨y', by rw [buffer_succ (by omega)]; exact hy', ?_, ?_⟩
        · intro _
          have e1 : (((i1 + 1 + 1 : Nat) : Int) - 2) = (i1 : Int) := by push_cast; ring
          have e2 : (((j1 + 1 + 1 : Nat) : Int) - 2) = (j1 : Int) := by push_cast; ring
          rw [e1, e2]
          exact h.load (i := i1) (j := j1) (by omega) (by omega) (by right; right; left; omega)
        · rw [pre_succ hx', pre_succ hy', dist_twiddle_cons]
          rfl
  obtain ⟨ty, par, heq⟩ := calculate_ed_cell_eval (' ' :: (p ++ [Char.ofNat 0]))
    (' ' :: (q ++ [Char.ofNat 0])) q.length c (i0 + 1) (j0 + 1) e x y x' y' c11 c10 c01
    (dist c (pre p (i0 - 1)) (pre q (j0 - 1))) (by omega) (by omega)
    (by rw [buffer_succ hi]; exact hx) (by rw [buffer_succ hj]; exact hy)
    (by simpa using hx') (by simpa using hy')
    (by rw [ei, ej]; exact l11) (by rw [ei]; exact l10) (by rw [ej]; exact l01) h22
  rw [heq]
  apply h.store (by omega) (by omega) ty par
  · rw [pre_succ hx, pre_succ hy, dist_cons_cons, htw, v11, v10, v01]
  · intro i' j' hd
    rcases hd with h1 | h1 | h1 | ⟨h1, h2⟩
    · exact Or.inl (Or.inl h1)
    · exact Or.inl (Or.inr (Or.inl h1))
    · exact Or.inl (Or.inr (Or.inr (Or.inl h1)))
    · by_cases hjj : j' = j0 + 1
      · exact Or.inr ⟨h1, hjj⟩
      · exact Or.inl (Or.inr (Or.inr (Or.inr ⟨h1, by omega⟩)))

/-! ## The whole table -/

theorem Filled.mono {c : editcosts_t} {p q : List Char} {done done' : Nat → Nat → Prop}
    {e : Table} (h : Filled c p q done e)
    (hd : ∀ i j, i ≤ p.length → j ≤ q.length → done' i j → done i j) : Filled c p q done' e :=
  ⟨h.1, fun i j hi hj hdone => h.2 i j hi hj (hd i j hi hj hdone)⟩

theorem Filled.malloc (c : editcosts_t) (p q : List Char) :
    Filled c p q (fun _ _ => False)
      (Table.malloc (((p.length : Int) + 1) * ((q.length : Int) + 1))) :=
  ⟨rfl, fun _ _ _ _ h => h.elim⟩

/-- For strings without a blank `calculate_ed` fills the whole table, staying inside the
block, and every cell holds the value of the recurrence. -/
theorem calculate_ed_fill_filled (c : editcosts_t) (p q : List Char)
    (hp : ' ' ∉ p) (hq : ' ' ∉ q) :
    ∃ e', calculate_ed_fill (' ' :: (p ++ [Char.ofNat 0])) (' ' :: (q ++ [Char.ofNat 0]))
        (Table.malloc (((p.length : Int) + 1) * ((q.length : Int) + 1))) p.length q.length c
          = some e' ∧
      Filled c p q (fun _ _ => True) e' := by
  unfold calculate_ed_fill
  -- the origin
  obtain ⟨e0, hs0, f0⟩ := (Filled.malloc c p q).store (i := 0) (j := 0) (Nat.zero_le _) (Nat.zero_le _)
    .OP_COUNT (-1) (v := 0) (D := fun i j => i = 0 ∧ j < 1)
    (by rw [pre_zero, dist_nil_left]; rfl) (fun i' j' hd => Or.inr ⟨hd.1, by omega⟩)
  have hI0 : INDEX ((0 : Nat) : Int) ((0 : Nat) : Int) (q.length : Int) = 0 := by simp [INDEX]
  rw [hI0] at hs0
  -- row 0
  obtain ⟨e1, hs1, f1⟩ := forLoop_total
    (fun k e => e.store (INDEX 0 k q.length) ⟨.OP_INSERT, INDEX 0 ((k : Int) - 1) q.length, k⟩)
    (fun k e => Filled c p q (fun i j => i = 0 ∧ j < k) e) q.length 1 e0 f0
    (by
      intro k e hk1 hk2 hf
      have := hf.store (i := 0) (j := k) (Nat.zero_le _) (by omega) .OP_INSERT
        (INDEX 0 ((k : Int) - 1) q.length) (v := (k : Int)) (D := fun i j => i = 0 ∧ j < k + 1)
        (by rw [pre_zero, dist_nil_left, pre_length (by omega)])
        (fun i' j' hd => by
          by_cases hjk : j' = k
          · exact Or.inr ⟨hd.1, hjk⟩
          · exact Or.inl ⟨hd.1, by omega⟩)
      simpa using this)
  -- column 0
  obtain ⟨e2, hs2, f2⟩ := forLoop_total
    (fun k e => e.store (INDEX k 0 q.length) ⟨.OP_DELETE, INDEX ((k : Int) - 1) 0 q.length, k⟩)
    (fun k e => Filled c p q (fun i j => i = 0 ∨ (j = 0 ∧ i < k)) e) p.length 1 e1
    (f1.mono (fun i j _ hj hd => by
      rcases hd with h1 | ⟨h1, h2⟩
      · exact ⟨h1, by omega⟩
      · exact ⟨by omega, by omega⟩))
    (by
      intro k e hk1 hk2 hf
      have := hf.store (i := k) (j := 0) (by omega) (Nat.zero_le _) .OP_DELETE
        (INDEX ((k : Int) - 1) 0 q.length) (v := (k : Int))
        (D := fun i j => i = 0 ∨ (j = 0 ∧ i < k + 1))
        (by rw [pre_zero, dist_nil_right, pre_length (by omega)])
        (fun i' j' hd => by
          rcases hd with h1 | ⟨h1, h2⟩
          · exact Or.inl (Or.inl h1)
          · by_cases hik : i' = k
            · exact Or.inr ⟨hik, h1⟩
            · exact Or.inl (Or.inr ⟨h1, by omega⟩))
      simpa using this)
  -- the rows 1, ..., M
  obtain ⟨e3, hs3, f3⟩ := forLoop_total
    (fun i e => forLoop (fun j e => calculate_ed_cell (' ' :: (p ++ [Char.ofNat 0]))
      (' ' :: (q ++ [Char.ofNat 0])) q.length c i j e) q.length 1 e)
    (fun i e => Filled c p q (fun i' j' => i' = 0 ∨ j' = 0 ∨ i' < i) e) p.length 1 e2
    (f2.mono (fun i j _ _ hd => by
      rcases hd with h1 | h1 | h1
      · exact Or.inl h1
      · exact Or.inr ⟨h1, by omega⟩
      · exact Or.inl (by omega)))
    (by
      intro i e hi1 hi2 hf
      obtain ⟨i0, rfl⟩ : ∃ i0, i = i0 + 1 := ⟨i - 1, by omega⟩
      obtain ⟨e', hs, hf'⟩ := forLoop_total
        (fun j e => calculate_ed_cell (' ' :: (p ++ [Char.ofNat 0]))
          (' ' :: (q ++ [Char.ofNat 0])) q.length c (i0 + 1) j e)
        (fun j e => Filled c p q
          (fun i' j' => i' = 0 ∨ j' = 0 ∨ i' < i0 + 1 ∨ (i' = i0 + 1 ∧ j' < j)) e) q.length 1 e
        (hf.mono (fun i' j' _ _ hd => by
          rcases hd with h1 | h1 | h1 | ⟨_, h2⟩
          · exact Or.inl h1
          · exact Or.inr (Or.inl h1)
          · exact Or.inr (Or.inr h1)
          · exact Or.inr (Or.inl (by omega))))
        (by
          intro j e'' hj1 hj2 hf''
          obtain ⟨j0, rfl⟩ : ∃ j0, j = j0 + 1 := ⟨j - 1, by omega⟩
          exact calculate_ed_cell_filled c p q hp hq i0 j0 (by omega) (by omega) e'' hf'')
      refine ⟨e', hs, hf'.mono (fun i' j' _ hj' hd => ?_)⟩
      rcases hd with h1 | h1 | h1
      · exact Or.inl h1
      · exact Or.inr (Or.inl h1)
      · by_cases hii : i' = i0 + 1
        · exact Or.inr (Or.inr (Or.inr ⟨hii, by omega⟩))
        · exact Or.inr (Or.inr (Or.inl (by omega))))
  refine ⟨e3, ?_, f3.mono (fun i j hi _ _ => ?_)⟩
  · simp only [hs0, Option.bind_eq_bind, Option.some_bind, Nat.cast_ofNat, hs1, hs2, hs3]
  · by_cases h0 : i = 0
    · exact Or.inl h0
    · exact Or.inr (Or.inr (by omega))

/-- For strings without a blank `editdistance` returns the value of the recurrence for
the two whole strings. -/
theorem editdistance_eq_dist (p q : List Char) (hp : ' ' ∉ p) (hq : ' ' ∉ q)
    (costs_in : Option editcosts_t) :
    editdistance p q costs_in =
      some (dist (match costs_in with | some c => c | none => unit_costs) p.reverse q.reverse) := by
  unfold editdistance
  simp only
  generalize (match costs_in with | some c => c | none => unit_costs) = c
  have em : (p.length : Int) + 2 - 1 - 1 = p.length := by ring
  have en : (q.length : Int) + 2 - 1 - 1 = q.length := by ring
  have em1 : (p.length : Int) + 2 - 1 = p.length + 1 := by ring
  have en1 : (q.length : Int) + 2 - 1 = q.length + 1 := by ring
  rw [em, en, em1, en1]
  unfold calculate_ed
  simp only
  have h1 : ¬ ((p.length : Int) < 0 ∨ (q.length : Int) < 0) := by omega
  rw [if_neg h1]
  by_cases hM : (p.length : Int) = 0
  · rw [if_pos hM]
    have : p = [] := List.length_eq_zero.mp (by exact_mod_cast hM)
    subst this
    rw [List.reverse_nil, dist_nil_left, List.length_reverse]
  · rw [if_neg hM]
    by_cases hN : (q.length : Int) = 0
    · rw [if_pos hN]
      have : q = [] := List.length_eq_zero.mp (by exact_mod_cast hN)
      subst this
      rw [List.reverse_nil, dist_nil_right, List.length_reverse]
    · rw [if_neg hN]
      obtain ⟨e', hfill, hf⟩ := calculate_ed_fill_filled c p q hp hq
      obtain ⟨cl, hl, hed⟩ := hf.load (i := p.length) (j := q.length) (Nat.le_refl _) (Nat.le_refl _)
        trivial
      simp only [Int.toNat_ofNat, hfill, Option.bind_eq_bind, Option.some_bind, hl, Option.pure_def,
        hed, pre_length_self]

/-! ## The tree: stored strings and the bucket invariant -/

theorem kdtree_node.mem_strings_node {x s : List Char} {children : Fin 16 → kdtree_node} :
    x ∈ (kdtree_node.node s children).strings ↔ x = s ∨ ∃ l, x ∈ (children l).strings := by
  simp [kdtree_node.strings, List.mem_flatMap]

theorem kdtree_node.nonnull_of_mem {r : kdtree_node} {x : List Char} (h : x ∈ r.strings) :
    r.nonnull = true := by
  cases r with
  | NULL => simp [kdtree_node.strings] at h
  | node s children => rfl

theorem kdtree_node.strings_allocate (s : List Char) : (allocate_kdtree_node s).strings = [s] := by
  simp [allocate_kdtree_node, kdtree_node.strings]

theorem kdtree_node.bucketed_allocate (f : distance_function) (s : List Char) :
    (allocate_kdtree_node s).bucketed f := by
  intro l
  simp [kdtree_node.strings, kdtree_node.bucketed]

/-- The method `kdtree_insert_recursive` keeps the bucket invariant and adds at most the
inserted string. -/
theorem kdtree_insert_recursive_bucketed (f : distance_function) (inp : List Char)
    (r r' : kdtree_node) (h : kdtree_insert_recursive f r inp = some r') (hb : r.bucketed f) :
    r'.bucketed f ∧ ∀ x ∈ r'.strings, x ∈ r.strings ∨ x = inp := by
  induction r generalizing r' with
  | NULL =>
    simp only [kdtree_insert_recursive, Option.some.injEq] at h
    subst h
    exact ⟨hb, fun x hx => Or.inl hx⟩
  | node s children ih =>
    rw [kdtree_insert_recursive] at h
    cases hf : f s inp with
    | none => rw [hf] at h; simp at h
    | some d =>
      rw [hf] at h
      simp only at h
      by_cases hd : 0 ≤ d ∧ d < 16
      · rw [dif_pos hd] at h
        have hcast : ((⟨d.toNat, by omega⟩ : Fin 16).val : Int) = d := by
          simp only; omega
        generalize hl : (⟨d.toNat, by omega⟩ : Fin 16) = l at h hcast
        by_cases hnn : (children l).nonnull = true
        · simp only [hnn, if_true] at h
          cases hrec : kdtree_insert_recursive f (children l) inp with
          | none => rw [hrec] at h; simp at h
          | some c =>
            rw [hrec] at h
            simp only [Option.some.injEq] at h
            subst h
            obtain ⟨hcb, hcs⟩ := ih l c hrec (hb l).2
            constructor
            · intro l'
              by_cases hll : l' = l
              · subst hll
                simp only [Function.update_same]
                refine ⟨fun x hx => ?_, hcb⟩
                rcases hcs x hx with h1 | h1
                · exact (hb l').1 x h1
                · rw [h1, hf, hcast]
              · simp only [Function.update_noteq hll]
                exact hb l'
            · intro x hx
              rw [kdtree_node.mem_strings_node] at hx ⊢
              rcases hx with h1 | ⟨l', h1⟩
              · exact Or.inl (Or.inl h1)
              · by_cases hll : l' = l
                · subst hll
                  simp only [Function.update_same] at h1
                  rcases hcs x h1 with h2 | h2
                  · exact Or.inl (Or.inr ⟨l', h2⟩)
                  · exact Or.inr h2
                · simp only [Function.update_noteq hll] at h1
                  exact Or.inl (Or.inr ⟨l', h1⟩)
        · simp only [hnn, Bool.false_eq_true, if_false, Option.some.injEq] at h
          subst h
          constructor
          · intro l'
            by_cases hll : l' = l
            · subst hll
              simp only [Function.update_same, kdtree_node.strings_allocate, List.mem_singleton]
              refine ⟨fun x hx => ?_, kdtree_node.bucketed_allocate f inp⟩
              rw [hx, hf, hcast]
            · simp only [Function.update_noteq hll]
              exact hb l'
          · intro x hx
            rw [kdtree_node.mem_strings_node] at hx ⊢
            rcases hx with h1 | ⟨l', h1⟩
            · exact Or.inl (Or.inl h1)
            · by_cases hll : l' = l
              · subst hll
                simp only [Function.update_same, kdtree_node.strings_allocate,
                  List.mem_singleton] at h1
                exact Or.inr h1
              · simp only [Function.update_noteq hll] at h1
                exact Or.inl (Or.inr ⟨l', h1⟩)
      · rw [dif_neg hd] at h
        simp only [Option.some.injEq] at h
        subst h
        exact ⟨hb, fun x hx => Or.inl hx⟩

theorem kdtree.insert_f {t t' : kdtree} {inp : List Char} (h : t.insert inp = some t') :
    t'.f = t.f ∧ kdtree_insert_recursive t.f t.root inp = some t'.root := by
  unfold kdtree.insert at h
  cases hr : kdtree_insert_recursive t.f t.root inp with
  | none => rw [hr] at h; simp at h
  | some r =>
    rw [hr] at h
    simp only [Option.map_some', Option.some.injEq] at h
    subst h
    exact ⟨rfl, rfl⟩

theorem Reachable.f_eq {f : distance_function} {t : kdtree} (h : Reachable f t) : t.f = f := by
  induction h with
  | new seed => rfl
  | insert inp _ hins ih => rw [(kdtree.insert_f hins).1, ih]

theorem Reachable.bucketed {f : distance_function} {t : kdtree} (h : Reachable f t) :
    t.root.bucketed f := by
  induction h with
  | new seed => exact kdtree_node.bucketed_allocate f seed
  | @insert t t' inp hr hins ih =>
    have h1 := (kdtree.insert_f hins).2
    rw [hr.f_eq] at h1
    exact (kdtree_insert_recursive_bucketed f inp _ _ h1 ih).1

theorem kdtree_node.bucketed_isNode {f : distance_function} {r x : kdtree_node}
    (hx : IsNode r x) (hb : r.bucketed f) : x.bucketed f := by
  induction hx with
  | root s children => exact hb
  | child l _ ih => exact ih (hb l).2

/-! ## The tree: search -/

theorem kdtree_search_recursive_node (f : distance_function) (query : List Char) (n N : Int)
    (s : List Char) (children : Fin 16 → kdtree_node) (st : search_state) (d : Int)
    (hf : f s query = some d) :
    kdtree_search_recursive f query n N (.node s children) st =
      if (st.i : Int) ≥ N then some ⟨st.result, st.i, .call s query :: st.log⟩
      else
        forLoop (fun l st =>
          if h : l < 16 then
            if d - n ≤ (l : Int) ∧ (l : Int) ≤ d + n ∧ (children ⟨l, h⟩).nonnull then
              kdtree_search_recursive f query n N (children ⟨l, h⟩) st
            else some st
          else some st) 16 0
          (if d ≤ n then
            ⟨fun k => if k = st.i then some s else st.result k, st.i + 1,
              .write st.i s :: .call s query :: st.log⟩
          else ⟨st.result, st.i, .call s query :: st.log⟩) := by
  rw [kdtree_search_recursive, hf]

theorem SearchExt.refl (f : distance_function) (query : List Char) (n N : Int)
    (S : List Char → Prop) (st : search_state) : SearchExt f query n N S st st :=
  ⟨Nat.le_refl _, fun _ _ => rfl, fun _ _ => rfl, fun h => h, fun k h1 h2 => by omega, by simp⟩

theorem SearchExt.trans {f : distance_function} {query : List Char} {n N : Int}
    {S : List Char → Prop} {st st' st'' : search_state}
    (h1 : SearchExt f query n N S st st') (h2 : SearchExt f query n N S st' st'') :
    SearchExt f query n N S st st'' := by
  obtain ⟨a1, b1, c1, d1, e1, g1⟩ := h1
  obtain ⟨a2, b2, c2, d2, e2, g2⟩ := h2
  refine ⟨by omega, ?_, ?_, fun h => d2 (d1 h), ?_, by omega⟩
  · intro k hk
    rw [b2 k (by omega), b1 k hk]
  · intro k hk
    rw [c2 k hk, c1 k (by omega)]
  · intro k hk1 hk2
    by_cases hlt : k < st'.i
    · obtain ⟨s, hs, hS, hd⟩ := e1 k hk1 hlt
      exact ⟨s, by rw [b2 k hlt, hs], hS, hd⟩
    · exact e2 k (by omega) hk2

theorem SearchExt.weaken {f : distance_function} {query : List Char} {n N : Int}
    {S S' : List Char → Prop} {st st' : search_state}
    (h : SearchExt f query n N S st st') (hS : ∀ s, S s → S' s) :
    SearchExt f query n N S' st st' := by
  obtain ⟨a1, b1, c1, d1, e1, g1⟩ := h
  refine ⟨a1, b1, c1, d1, ?_, g1⟩
  intro k hk1 hk2
  obtain ⟨s, hs, hSs, hd⟩ := e1 k hk1 hk2
  exact ⟨s, hs, hS s hSs, hd⟩

/-- What the node itself contributes: the call of the distance function and, when the
distance is at most `n`, one entry. -/
theorem SearchExt.visit (f : distance_function) (query : List Char) (n N : Int)
    (s : List Char) (S : List Char → Prop) (hS : S s) (st : search_state) (d : Int)
    (hf : f s query = some d) (hlim : ¬ (st.i : Int) ≥ N) :
    SearchExt f query n N S st
      (if d ≤ n then
        ⟨fun k => if k = st.i then some s else st.result k, st.i + 1,
          .write st.i s :: .call s query :: st.log⟩
      else ⟨st.result, st.i, .call s query :: st.log⟩) := by
  by_cases hd : d ≤ n
  · rw [if_pos hd]
    refine ⟨by simp, ?_, ?_, ?_, ?_, ?_⟩
    · intro k hk
      simp only
      rw [if_neg (by omega)]
    · intro k hk
      simp only at hk ⊢
      rw [if_neg (by omega)]
    · intro _
      simp only
      push_cast
      omega
    · intro k hk1 hk2
      simp only at hk2
      have : k = st.i := by omega
      subst this
      exact ⟨s, by simp, hS, d, hf, hd⟩
    · simp [search_event.is_write]
  · rw [if_neg hd]
    exact ⟨Nat.le_refl _, fun _ _ => rfl, fun _ _ => rfl, fun h => h, fun k h1 h2 => by
      simp only at h2; omega, by simp [search_event.is_write]⟩

/-- The effect of `kdtree_search_recursive` on the state. -/
theorem kdtree_search_recursive_ext (f : distance_function) (query : List Char) (n N : Int)
    (r : kdtree_node) (st st' : search_state)
    (h : kdtree_search_recursive f query n N r st = some st') :
    SearchExt f query n N (fun s => s ∈ r.strings) st st' := by
  induction r generalizing st st' with
  | NULL =>
    simp only [kdtree_search_recursive, Option.some.injEq] at h
    subst h
    exact SearchExt.refl _ _ _ _ _ _
  | node s children ih =>
    cases hf : f s query with
    | none => rw [kdtree_search_recursive, hf] at h; simp at h
    | some d =>
      rw [kdtree_search_recursive_node f query n N s children st d hf] at h
      by_cases hlim : (st.i : Int) ≥ N
      · rw [if_pos hlim] at h
        simp only [Option.some.injEq] at h
        subst h
        exact ⟨Nat.le_refl _, fun _ _ => rfl, fun _ _ => rfl, fun h => h, fun k h1 h2 => by
          simp only at h2; omega, by simp [search_event.is_write]⟩
      · rw [if_neg hlim] at h
        have hv := SearchExt.visit f query n N s (fun x => x ∈ (kdtree_node.node s children).strings)
          (kdtree_node.mem_strings_node.mpr (Or.inl rfl)) st d hf hlim
        refine hv.trans ?_
        have := forLoop_invariant _
          (fun (_ : Nat) stc => SearchExt f query n N
            (fun x => x ∈ (kdtree_node.node s children).strings) _ stc)
          16 0 _ st' (SearchExt.refl _ _ _ _ _ _) ?_ h
        · exact this
        · intro l s1 s2 _ hl hI hbody
          simp only at hbody
          have hl16 : l < 16 := by omega
          rw [dif_pos hl16] at hbody
          split at hbody
          · exact hI.trans ((ih ⟨l, hl16⟩ s1 s2 hbody).weaken
              (fun x hx => kdtree_node.mem_strings_node.mpr (Or.inr ⟨_, hx⟩)))
          · simp only [Option.some.injEq] at hbody
            subst hbody
            exact hI

/-- When the distance function is defined between every stored string and the query,
`kdtree_search_recursive` returns. -/
theorem kdtree_search_recursive_total (f : distance_function) (query : List Char) (n N : Int)
    (r : kdtree_node) (st : search_state)
    (hf : ∀ s ∈ r.strings, (f s query).isSome = true) :
    ∃ st', kdtree_search_recursive f query n N r st = some st' := by
  induction r generalizing st with
  | NULL => exact ⟨st, rfl⟩
  | node s children ih =>
    obtain ⟨d, hd⟩ := Option.isSome_iff_exists.mp
      (hf s (kdtree_node.mem_strings_node.mpr (Or.inl rfl)))
    rw [kdtree_search_recursive_node f query n N s children st d hd]
    by_cases hlim : (st.i : Int) ≥ N
    · rw [if_pos hlim]; exact ⟨_, rfl⟩
    · rw [if_neg hlim]
      apply forLoop_returns
      intro l s1 hl
      have hl16 : l < 16 := by omega
      rw [dif_pos hl16]
      split
      · exact ih ⟨l, hl16⟩ s1
          (fun x hx => hf x (kdtree_node.mem_strings_node.mpr (Or.inr ⟨_, hx⟩)))
      · exact ⟨s1, rfl⟩

/-- Once the limit is reached, a call of `kdtree_search_recursive` on a node computes the
distance of that node and returns: nothing is written and no child is visited. -/
theorem kdtree_search_recursive_at_limit (f : distance_function) (query : List Char) (n N : Int)
    (s : List Char) (children : Fin 16 → kdtree_node) (st : search_state) (d : Int)
    (hf : f s query = some d) (hlim : (st.i : Int) ≥ N) :
    kdtree_search_recursive f query n N (.node s children) st =
      some ⟨st.result, st.i, .call s query :: st.log⟩ := by
  rw [kdtree_search_recursive_node f query n N s children st d hf, if_pos hlim]

theorem effective_limit_eq (m : Int) :
    (if m ≤ 0 ∨ m > MAXIMUM_SEARCH_RESULTS then MAXIMUM_SEARCH_RESULTS else m) = effective_limit m := by
  unfold effective_limit MAXIMUM_SEARCH_RESULTS
  split_ifs <;> omega

theorem kdtree.search_eq (t : kdtree) (query : List Char) (n m : Int) :
    t.search query n m =
      kdtree_search_recursive t.f query n (effective_limit m) t.root ⟨fun _ => none, 0, []⟩ := by
  unfold kdtree.search
  simp only [effective_limit_eq]

theorem effective_limit_pos (m : Int) : 1 ≤ effective_limit m := by
  unfold effective_limit
  split_ifs <;> omega

/-! ## The tree: completeness of search under the triangle inequality -/

theorem Reachable.bucket_invariant {f : distance_function} {t : kdtree} (h : Reachable f t) :
    t.bucket_invariant := by
  intro s children hx l _
  have hb := kdtree_node.bucketed_isNode hx h.bucketed l
  rw [h.f_eq]
  refine ⟨fun cs cch hc => hb.1 cs ?_, hb.1⟩
  rw [hc]
  exact kdtree_node.mem_strings_node.mpr (Or.inl rfl)

/-- Under unit costs, for strings without a blank whose length fits an `int`,
`editdistance` returns `adist true` of the two strings read backwards. -/
theorem editdistance_eq_adist (a b : List Char) (ha : ' ' ∉ a) (hb : ' ' ∉ b)
    (hla : (a.length : Int) ≤ INT_MAX) (hlb : (b.length : Int) ≤ INT_MAX) :
    editdistance a b none = some ((adist true a.reverse b.reverse : Nat) : Int) := by
  rw [editdistance_eq_dist a b ha hb none]
  simp only
  rw [dist_unit _ _ (by rwa [List.length_reverse]) (by rwa [List.length_reverse])]

/-- For a string without a blank, every cost table gives distance 0 to itself. -/
theorem editdistance_self (a : List Char) (ha : ' ' ∉ a) (costs_in : Option editcosts_t) :
    editdistance a a costs_in = some 0 := by
  rw [editdistance_eq_dist a a ha ha costs_in, dist_self]

/-- Under unit costs, for strings without a blank whose length fits an `int`, the
distance is symmetric. -/
theorem editdistance_symm (a b : List Char) (ha : ' ' ∉ a) (hb : ' ' ∉ b)
    (hla : (a.length : Int) ≤ INT_MAX) (hlb : (b.length : Int) ≤ INT_MAX) :
    editdistance a b none = editdistance b a none := by
  rw [editdistance_eq_adist a b ha hb hla hlb, editdistance_eq_adist b a hb ha hlb hla,
    adist_symm]

/-- C5.  Bucket invariant: in every tree built by the constructor and calls of `insert`,
for every node and every bucket whose child slot is non-empty, the child's string and
every string held in the child's subtree are at distance exactly the bucket index from
the node's string; a further `insert` gives a tree with the same property. -/
theorem bucket_invariant_reachable (f : distance_function) (t : kdtree) (h : Reachable f t) :
    t.bucket_invariant ∧ ∀ inp t', t.insert inp = some t' → t'.bucket_invariant :=
  ⟨h.bucket_invariant, fun inp _ hins => (Reachable.insert inp h hins).bucket_invariant⟩

/-- C5 at the tree seeded with "cat" into which "cats" and "bat" are inserted. -/
theorem bucket_invariant_reachable_witness :
    ∃ t1 t, (kdtree.new ['c', 'a', 't'] editdistance_wrapper).insert ['c', 'a', 't', 's'] = some t1 ∧
      t1.insert ['b', 'a', 't'] = some t ∧
      (t.bucket_invariant ∧ ∀ inp t', t.insert inp = some t' → t'.bucket_invariant) := by
  refine ⟨_, _, rfl, rfl, ?_⟩
  exact bucket_invariant_reachable editdistance_wrapper _
    (Reachable.insert ['b', 'a', 't']
      (Reachable.insert ['c', 'a', 't', 's'] (Reachable.new ['c', 'a', 't']) rfl) rfl)

/-- C7, at the failing input.  Seed "a", insert "b", search("a", 1, result, 1): the run
calls the distance function on "a", writes `result[0]`, which reaches the limit 1, and
then calls the distance function again, on "b". -/
theorem search_calls_after_limit :
    (((kdtree.new ['a'] editdistance_wrapper).insert ['b']).bind
      (fun t => t.search ['a'] 1 1)).map search_state.events =
    some [.call ['a'] ['a'], .write 0 ['a'], .call ['b'] ['a']] := by
  decide

/-- C8, at the failing input.  For a = "xya " and b = "a", editdistance(a, b) returns 2
(the twiddle candidate at the cell (4, 1) reads the cell (1, 1)), and editdistance(b, a)
reads `e[-3]`, outside the table. -/
theorem editdistance_blank_asymmetric :
    editdistance ['x', 'y', 'a', ' '] ['a'] none = some 2 ∧
    editdistance ['a'] ['x', 'y', 'a', ' '] none = none := by
  decide

/-- What `kdtree_insert_recursive` does to a node, by the distances of its descent. -/
theorem kdtree_insert_recursive_effect (f : distance_function) (inp : List Char)
    (r r' : kdtree_node) (hnn : r.nonnull = true)
    (h : kdtree_insert_recursive f r inp = some r') :
    ∃ ds, descent_distances f r inp = some ds ∧ ds ≠ [] ∧
      ((∀ d ∈ ds, 0 ≤ d ∧ d < 16) → AddLeaf inp r r') ∧
      ((∃ d ∈ ds, ¬ (0 ≤ d ∧ d < 16)) → r' = r) := by
  induction r generalizing r' with
  | NULL => simp [kdtree_node.nonnull] at hnn
  | node s children ih =>
    rw [kdtree_insert_recursive] at h
    rw [descent_distances]
    cases hf : f s inp with
    | none => rw [hf] at h; simp at h
    | some d =>
      rw [hf] at h
      simp only at h ⊢
      by_cases hd : 0 ≤ d ∧ d < 16
      · rw [dif_pos hd] at h ⊢
        generalize (⟨d.toNat, by omega⟩ : Fin 16) = l at h ⊢
        by_cases hc : (children l).nonnull = true
        · simp only [hc, if_true] at h ⊢
          cases hrec : kdtree_insert_recursive f (children l) inp with
          | none => rw [hrec] at h; simp at h
          | some c =>
            rw [hrec] at h
            simp only [Option.some.injEq] at h
            subst h
            obtain ⟨ds, hds, -, hA, hB⟩ := ih l c hc hrec
            refine ⟨d :: ds, by rw [hds]; rfl, by simp, ?_, ?_⟩
            · intro hall
              exact AddLeaf.deeper s children l c
                (hA (fun d' hd' => hall d' (List.mem_cons_of_mem _ hd')))
            · rintro ⟨d', hd', hout⟩
              rcases List.mem_cons.mp hd' with h1 | h1
              · subst h1; exact absurd hd hout
              · rw [hB ⟨d', h1, hout⟩, Function.update_eq_self]
        · simp only [hc, Bool.false_eq_true, if_false, Option.some.injEq] at h ⊢
          subst h
          refine ⟨[d], rfl, by simp, fun _ => ?_, ?_⟩
          · exact AddLeaf.here s children l (by simpa using hc)
          · rintro ⟨d', hd', hout⟩
            rw [List.mem_singleton.mp hd'] at hout
            exact absurd hd hout
      · rw [dif_neg hd] at h ⊢
        simp only [Option.some.injEq] at h
        subst h
        exact ⟨[d], rfl, by simp, fun hall => absurd (hall d (List.mem_singleton.mpr rfl)) hd,
          fun _ => rfl⟩

/-- The method `kdtree_insert_recursive` returns when the distance function is defined
between every stored string and the inserted one. -/
theorem kdtree_insert_recursive_total (f : distance_function) (inp : List Char)
    (r : kdtree_node) (hf : ∀ x ∈ r.strings, (f x inp).isSome = true) :
    ∃ r', kdtree_insert_recursive f r inp = some r' := by
  induction r with
  | NULL => exact ⟨_, rfl⟩
  | node s children ih =>
    rw [kdtree_insert_recursive]
    obtain ⟨d, hd⟩ := Option.isSome_iff_exists.mp
      (hf s (kdtree_node.mem_strings_node.mpr (Or.inl rfl)))
    rw [hd]
    simp only
    by_cases hr : 0 ≤ d ∧ d < 16
    · rw [dif_pos hr]
      generalize (⟨d.toNat, by omega⟩ : Fin 16) = l
      by_cases hc : (children l).nonnull = true
      · simp only [hc, if_true]
        obtain ⟨c, hc'⟩ := ih l
          (fun x hx => hf x (kdtree_node.mem_strings_node.mpr (Or.inr ⟨l, hx⟩)))
        rw [hc']
        exact ⟨_, rfl⟩
      · simp only [hc, Bool.false_eq_true, if_false]
        exact ⟨_, rfl⟩
    · rw [dif_neg hr]
      exact ⟨_, rfl⟩

/-- C13.  Effect of `insert`: with `ds` the distances computed along the descent,
`insert(inp)` adds exactly one new leaf holding `inp` in a previously empty child slot when
every distance of `ds` lies in [0, 16), and leaves the tree unchanged when some distance of
`ds` lies outside [0, 16); in both cases every node keeps its string and its other child
slots, and the distance function of the tree is unchanged.  The call returns when the
distance function is defined between every stored string and `inp`. -/
theorem insert_effect (t : kdtree) (inp : List Char) (hroot : t.root.nonnull = true) :
    (∀ t', t.insert inp = some t' →
      t'.f = t.f ∧
      ∃ ds, descent_distances t.f t.root inp = some ds ∧ ds ≠ [] ∧
        ((∀ d ∈ ds, 0 ≤ d ∧ d < 16) → AddLeaf inp t.root t'.root) ∧
        ((∃ d ∈ ds, ¬ (0 ≤ d ∧ d < 16)) → t' = t)) ∧
    ((∀ x ∈ t.root.strings, (t.f x inp).isSome = true) → ∃ t', t.insert inp = some t') := by
  constructor
  · intro t' hins
    obtain ⟨hf, hrec⟩ := kdtree.insert_f hins
    obtain ⟨ds, hds, hne, hA, hB⟩ := kdtree_insert_recursive_effect t.f inp t.root t'.root hroot hrec
    refine ⟨hf, ds, hds, hne, hA, fun hout => ?_⟩
    have hr := hB hout
    cases t with
    | mk root f =>
      cases t' with
      | mk root' f' =>
        simp only at hf hr
        rw [hf, hr]
  · intro hdef
    obtain ⟨r', hr'⟩ := kdtree_insert_recursive_total t.f inp t.root hdef
    exact ⟨⟨r', t.f⟩, by unfold kdtree.insert; rw [hr']; rfl⟩

/-- C13 at the example tree and the string "hat": the descent computes the distances
1, 2, 1 and "hat" becomes a new leaf. -/
theorem insert_effect_witness :
    ∃ t', example_tree.insert ['h', 'a', 't'] = some t' ∧
      descent_distances example_tree.f example_tree.root ['h', 'a', 't'] = some [1, 2, 1] ∧
      AddLeaf ['h', 'a', 't'] example_tree.root t'.root := by
  obtain ⟨t', ht'⟩ := (insert_effect example_tree ['h', 'a', 't'] (by decide)).2 (by decide)
  obtain ⟨-, ds, hds, -, hA, -⟩ := (insert_effect example_tree ['h', 'a', 't'] (by decide)).1 t' ht'
  have hds' : descent_distances example_tree.f example_tree.root ['h', 'a', 't'] = some [1, 2, 1] := by
    decide
  rw [hds'] at hds
  simp only [Option.some.injEq] at hds
  subst hds
  exact ⟨t', ht', hds', hA (by decide)⟩

/-! ## The range of the distance under unit costs -/

theorem le_MIN4 {m a b c d : Int} (ha : m ≤ a) (hb : m ≤ b) (hc : m ≤ c) (hd : m ≤ d) :
    m ≤ MIN4 a b c d := by
  unfold MIN4 MIN
  split_ifs <;> omega

/-- Under unit costs the recurrence is never negative. -/
theorem dist_unit_nonneg (a b : List Char) : 0 ≤ dist unit_costs a b := by
  generalize hn : a.length + b.length = n
  induction n using Nat.strong_induction_on generalizing a b with
  | _ n ih =>
    cases a with
    | nil => rw [dist_nil_left]; positivity
    | cons x a =>
      cases b with
      | nil => rw [dist_nil_right]; positivity
      | cons y b =>
        simp only [List.length_cons] at hn
        rw [dist_cons_cons]
        split
        · exact ih _ (by omega) a b rfl
        · have h1 := ih _ (by simp only [List.length_cons]; omega) a (y :: b) rfl
          have h2 := ih _ (by simp only [List.length_cons]; omega) (x :: a) b rfl
          have h3 := ih _ (by omega) a b rfl
          have h4 : 0 ≤ dist_twiddle unit_costs x y a b := by
            cases a with
            | nil => rw [dist_twiddle_nil_left]; decide
            | cons x' a' =>
              cases b with
              | nil => rw [dist_twiddle_nil_right]; decide
              | cons y' b' =>
                simp only [List.length_cons] at hn
                rw [dist_twiddle_cons]
                split
                · have := ih _ (by omega) a' b' rfl
                  show 0 ≤ dist unit_costs a' b' + 1
                  omega
                · decide
          apply le_MIN4
          · show 0 ≤ dist unit_costs a (y :: b) + 1; omega
          · show 0 ≤ dist unit_costs (x :: a) b + 1; omega
          · show 0 ≤ dist unit_costs a b + 1; omega
          · exact h4

theorem AddLeaf.nonnull {inp : List Char} {r r' : kdtree_node} (h : AddLeaf inp r r') :
    r'.nonnull = true := by
  cases h <;> rfl

/-- C14, counterexample.  In the tree built from "cat", "cats", "bat", "hat", "dog" the
call search("cot", 1, result, 4) returns no entry equal to "hat". -/
theorem dictionary_scenario_counterexample :
    ∃ t st, build_tree editdistance_wrapper ['c', 'a', 't']
        [['c', 'a', 't', 's'], ['b', 'a', 't'], ['h', 'a', 't'], ['d', 'o', 'g']] = some t ∧
      t.search ['c', 'o', 't'] 1 4 = some st ∧
      ¬ ∃ k, k < st.i ∧ st.result k = some ['h', 'a', 't'] :=
  ⟨_, _, rfl, rfl, by decide⟩

/-- C14, amended.  In the tree built from "cat", "cats", "bat", "hat", "dog" the call
search("cot", 1, result, 4) returns exactly one entry, "cat": the result contains "cat",
contains neither "hat" nor "dog", whose distances to "cot" are 2, and has at most 4
entries. -/
theorem dictionary_scenario :
    ((build_tree editdistance_wrapper ['c', 'a', 't']
        [['c', 'a', 't', 's'], ['b', 'a', 't'], ['h', 'a', 't'], ['d', 'o', 'g']]).bind
      (fun t => t.search ['c', 'o', 't'] 1 4)).map search_state.entries
      = some [some ['c', 'a', 't']] ∧
    editdistance ['c', 'a', 't'] ['c', 'o', 't'] none = some 1 ∧
    editdistance ['h', 'a', 't'] ['c', 'o', 't'] none = some 2 ∧
    editdistance ['d', 'o', 'g'] ['c', 'o', 't'] none = some 2 := by
  decide

/-- C17, at the failing inputs.  For a = "a", b = "a " the run of `editdistance` leaves
the table: at the cell (1, 2) the twiddle candidate reads `e[INDEX(-1, 0, 2)] = e[-3]`.
For a = "xya ", b = "a" the twiddle candidate is evaluated at the cell (4, 1), where
j < 2: it reads `e[INDEX(2, -1, 1)] = e[3]`, and the cell records Transpose with that
parent and the value 2. -/
theorem twiddle_out_of_table :
    editdistance ['a'] ['a', ' '] none = none ∧
    INDEX (-1) 0 2 = -3 ∧
    (calculate_ed_fill [' ', 'x', 'y', 'a', ' ', Char.ofNat 0] [' ', 'a', Char.ofNat 0]
        (Table.malloc 10) 4 1 unit_costs).bind (fun e => e.load (INDEX 4 1 1))
      = some ⟨.OP_TWIDDLE, INDEX 2 (-1) 1, 2⟩ ∧
    INDEX 2 (-1) 1 = 3 := by
  decide

/-! ## The limit only truncates -/

theorem forLoop_sim {α β : Type} (R : α → β → Prop) (bodyA : Nat → α → Option α)
    (bodyB : Nat → β → Option β) (count k : Nat) (a a' : α) (b : β)
    (hstep : ∀ k' x x' y, k ≤ k' → k' < k + count → R x y → bodyA k' x = some x' →
      ∃ y', bodyB k' y = some y' ∧ R x' y')
    (h0 : R a b) (hrun : forLoop bodyA count k a = some a') :
    ∃ b', forLoop bodyB count k b = some b' ∧ R a' b' := by
  induction count generalizing k a b with
  | zero =>
    simp only [forLoop, Option.some.injEq] at hrun
    subst hrun
    exact ⟨b, rfl, h0⟩
  | succ c ih =>
    simp only [forLoop] at hrun
    cases hA : bodyA k a with
    | none => rw [hA] at hrun; simp at hrun
    | some a1 =>
      rw [hA, Option.some_bind] at hrun
      obtain ⟨b1, hB, hR⟩ := hstep k a a1 b (Nat.le_refl k) (by omega) h0 hA
      obtain ⟨b', hB', hR'⟩ := ih (k + 1) a1 b1
        (fun k' x x' y hk hlt => hstep k' x x' y (by omega) (by omega)) hR hrun
      exact ⟨b', by simp only [forLoop, hB, Option.some_bind, hB'], hR'⟩

theorem take_take_append (N : Nat) (a b : List (List Char)) :
    (a.take N ++ b).take N = (a ++ b).take N := by
  rw [List.take_append_eq_append_take, List.take_append_eq_append_take, List.take_take,
    Nat.min_self, List.length_take]
  by_cases h : N ≤ a.length
  · rw [Nat.min_eq_left h, Nat.sub_self, Nat.sub_eq_zero_of_le h]
  · rw [Nat.min_eq_right (by omega)]

theorem search_state.holds_write {st : search_state} {l : List (List Char)} (h : st.holds l)
    (s : List Char) (log : List search_event) :
    search_state.holds ⟨fun k => if k = st.i then some s else st.result k, st.i + 1, log⟩
      (l ++ [s]) := by
  obtain ⟨hi, hr⟩ := h
  refine ⟨by simp [hi], fun k => ?_⟩
  simp only
  by_cases hk : k = st.i
  · rw [if_pos hk, hk, hi]
    simp
  · rw [if_neg hk, hr k]
    by_cases hlt : k < l.length
    · rw [List.getElem?_append_left hlt]
    · rw [List.getElem?_eq_none (by omega), List.getElem?_eq_none (by simp; omega)]

/-- The limited search against the unlimited traversal, from a state that holds `l`. -/
theorem kdtree_search_recursive_take (f : distance_function) (query : List Char) (n N : Int)
    (r : kdtree_node) (st : search_state) (l full : List (List Char))
    (hst : st.holds l) (hl : (l.length : Int) ≤ N)
    (hfull : unlimited_traversal f query n r = some full) :
    ∃ st', kdtree_search_recursive f query n N r st = some st' ∧
      st'.holds ((l ++ full).take N.toNat) := by
  induction r generalizing st l full with
  | NULL =>
    simp only [unlimited_traversal, Option.some.injEq] at hfull
    subst hfull
    refine ⟨st, rfl, ?_⟩
    rw [List.append_nil, List.take_of_length_le (by omega)]
    exact hst
  | node s children ih =>
    rw [unlimited_traversal] at hfull
    cases hf : f s query with
    | none => rw [hf] at hfull; simp at hfull
    | some d =>
      rw [hf] at hfull
      simp only at hfull
      rw [kdtree_search_recursive_node f query n N s children st d hf]
      by_cases hlim : (st.i : Int) ≥ N
      · rw [if_pos hlim]
        refine ⟨_, rfl, ?_⟩
        have hlen : l.length = N.toNat := by have := hst.1; omega
        rw [List.take_append_of_le_length (by omega), List.take_of_length_le (by omega)]
        exact ⟨hst.1, hst.2⟩
      · rw [if_neg hlim]
        have hlt : (l.length : Int) < N := by have := hst.1; omega
        apply forLoop_sim
          (fun (acc : List (List Char)) (stc : search_state) => stc.holds ((l ++ acc).take N.toNat))
          _ _ 16 0 _ full _ ?_ ?_ hfull
        · intro l' acc acc' stc _ hl' hR hbody
          have hl16 : l' < 16 := by omega
          simp only [dif_pos hl16] at hbody ⊢
          split at hbody
          · rename_i hcond
            rw [if_pos hcond]
            cases hsub : unlimited_traversal f query n (children ⟨l', hl16⟩) with
            | none => rw [hsub] at hbody; simp at hbody
            | some sub =>
              rw [hsub] at hbody
              simp only [Option.map_some', Option.some.injEq] at hbody
              subst hbody
              obtain ⟨st', hs', hh'⟩ := ih ⟨l', hl16⟩ stc ((l ++ acc).take N.toNat) sub hR
                (by rw [List.length_take]; omega) hsub
              refine ⟨st', hs', ?_⟩
              rw [take_take_append, List.append_assoc] at hh'
              exact hh'
          · rename_i hcond
            rw [if_neg hcond]
            simp only [Option.some.injEq] at hbody
            subst hbody
            exact ⟨stc, rfl, hR⟩
        · by_cases hd : d ≤ n
          · rw [if_pos hd, if_pos hd]
            rw [List.take_of_length_le (by simp; omega)]
            exact search_state.holds_write hst s _
          · rw [if_neg hd, if_neg hd, List.append_nil, List.take_of_length_le (by omega)]
            exact ⟨hst.1, hst.2⟩

theorem MIN4_pos {a b c d : Int} (ha : 1 ≤ a) (hb : 1 ≤ b) (hc : 1 ≤ c) (hd : 1 ≤ d) :
    1 ≤ MIN4 a b c d := le_MIN4 ha hb hc hd

theorem dist_twiddle_unit_pos (x y : Char) (a b : List Char) :
    1 ≤ dist_twiddle unit_costs x y a b := by
  cases a with
  | nil => rw [dist_twiddle_nil_left]; decide
  | cons x' a' =>
    cases b with
    | nil => rw [dist_twiddle_nil_right]; decide
    | cons y' b' =>
      rw [dist_twiddle_cons]
      split
      · have := dist_unit_nonneg a' b'
        show 1 ≤ dist unit_costs a' b' + 1
        omega
      · decide

/-- Under unit costs the recurrence is 0 only between equal strings. -/
theorem dist_unit_eq_zero (a b : List Char) (h : dist unit_costs a b = 0) : a = b := by
  induction a generalizing b with
  | nil =>
    rw [dist_nil_left] at h
    exact (List.length_eq_zero.mp (by exact_mod_cast h)).symm
  | cons x a ih =>
    cases b with
    | nil =>
      rw [dist_nil_right] at h
      exact List.length_eq_zero.mp (by exact_mod_cast h)
    | cons y b =>
      rw [dist_cons_cons] at h
      by_cases hxy : x = y
      · rw [if_pos hxy] at h
        rw [hxy, ih b h]
      · rw [if_neg hxy] at h
        exfalso
        have h1 := dist_unit_nonneg a (y :: b)
        have h2 := dist_unit_nonneg (x :: a) b
        have h3 := dist_unit_nonneg a b
        have h4 := dist_twiddle_unit_pos x y a b
        have := MIN4_pos (a := dist unit_costs a (y :: b) + unit_costs.delete)
          (b := dist unit_costs (x :: a) b + unit_costs.insert)
          (c := dist unit_costs a b + unit_costs.replace) (d := dist_twiddle unit_costs x y a b)
          (by show 1 ≤ dist unit_costs a (y :: b) + 1; omega)
          (by show 1 ≤ dist unit_costs (x :: a) b + 1; omega)
          (by show 1 ≤ dist unit_costs a b + 1; omega) h4
        omega

/-- For strings without a blank, a distance of at most 0 under unit costs means that the
strings are equal. -/
theorem editdistance_wrapper_le_zero {a b : List Char} (ha : ' ' ∉ a) (hb : ' ' ∉ b) {d : Int}
    (h : editdistance_wrapper a b = some d) (hd : d ≤ 0) : a = b := by
  unfold editdistance_wrapper at h
  rw [editdistance_eq_dist a b ha hb none] at h
  simp only [Option.some.injEq] at h
  have h0 := dist_unit_nonneg a.reverse b.reverse
  have := dist_unit_eq_zero a.reverse b.reverse (by omega)
  exact List.reverse_injective this

/-- With `n = 0`, a run of `kdtree_search_recursive` over a tree that holds the query
writes an entry, unless the limit was reached before. -/
theorem kdtree_search_recursive_exact (f : distance_function) (query : List Char) (N : Int)
    (r : kdtree_node) (st st' : search_state)
    (h : kdtree_search_recursive f query 0 N r st = some st')
    (hb : r.bucketed f) (hq : query ∈ r.strings) (hself : ∀ d, f query query = some d → d ≤ 0) :
    st.i < st'.i ∨ (st.i : Int) ≥ N := by
  induction r generalizing st st' with
  | NULL => simp [kdtree_node.strings] at hq
  | node s children ih =>
    by_cases hlim : (st.i : Int) ≥ N
    · exact Or.inr hlim
    · left
      cases hf : f s query with
      | none => rw [kdtree_search_recursive, hf] at h; simp at h
      | some d =>
        rw [kdtree_search_recursive_node f query 0 N s children st d hf, if_neg hlim] at h
        have hv := SearchExt.visit f query 0 N s (fun _ => True) trivial st d hf hlim
        generalize hst1 : (if d ≤ 0 then
            (⟨fun k => if k = st.i then some s else st.result k, st.i + 1,
              .write st.i s :: .call s query :: st.log⟩ : search_state)
          else ⟨st.result, st.i, .call s query :: st.log⟩) = st1 at h hv
        have hmono : ∀ (l : Nat) (s1 s2 : search_state),
            (if h : l < 16 then
              if d - 0 ≤ (l : Int) ∧ (l : Int) ≤ d + 0 ∧ (children ⟨l, h⟩).nonnull then
                kdtree_search_recursive f query 0 N (children ⟨l, h⟩) s1
              else some s1
            else some s1) = some s2 → s1.i ≤ s2.i := by
          intro l s1 s2 hbody
          split at hbody
          · split at hbody
            · exact (kdtree_search_recursive_ext f query 0 N _ s1 s2 hbody).1
            · simp only [Option.some.injEq] at hbody; subst hbody; exact Nat.le_refl _
          · simp only [Option.some.injEq] at hbody; subst hbody; exact Nat.le_refl _
        rcases kdtree_node.mem_strings_node.mp hq with hqs | ⟨l, hl⟩
        · have hd0 : d ≤ 0 := hself d (by rw [← hqs] at hf; exact hf)
          rw [if_pos hd0] at hst1
          have := forLoop_invariant _ (fun (_ : Nat) stc => st1.i ≤ stc.i) 16 0 st1 st'
            (Nat.le_refl _) (fun l s1 s2 _ _ hI hbody => le_trans hI (hmono l s1 s2 hbody)) h
          rw [← hst1] at this
          simp only at this
          omega
        · have hdl : d = (l.val : Int) := by
            have := (hb l).1 query hl
            rw [hf] at this
            simpa using this
          have hst1i : st.i ≤ st1.i := hv.1
          have := forLoop_invariant _
            (fun (l' : Nat) stc => st1.i ≤ stc.i ∧ (l.val < l' → st.i < stc.i)) 16 0 st1 st'
            ⟨Nat.le_refl _, fun hlt => by omega⟩ ?_ h
          · exact this.2 l.isLt
          · intro l' s1 s2 _ hl' ⟨hI1, hI2⟩ hbody
            have hm := hmono l' s1 s2 hbody
            refine ⟨le_trans hI1 hm, fun hlt => ?_⟩
            by_cases hprev : l.val < l'
            · have := hI2 hprev
              omega
            · have hl16 : l' < 16 := by omega
              have hll : (⟨l', hl16⟩ : Fin 16) = l := Fin.ext (by simp only; omega)
              rw [dif_pos hl16, hll] at hbody
              rw [if_pos ⟨by omega, by omega, kdtree_node.nonnull_of_mem hl⟩] at hbody
              rcases ih l s1 s2 hbody (hb l).2 hl with h1 | h1
              · omega
              · have : (st.i : Int) < N := by omega
                have h2 : (st.i : Int) < (s1.i : Int) := by omega
                have h3 : st.i < s1.i := by exact_mod_cast h2
                omega

/-- Exact-match lookup for strings without a blank: in a tree bound to
`editdistance_wrapper` whose strings have no blank, and for a query without a blank,
`search(q, 0, result, m)` returns, every entry is equal to `q`, and the result is non-empty
if and only if the tree holds `q`. -/
theorem exact_match_lookup (t : kdtree) (ht : Reachable editdistance_wrapper t)
    (hblank : ∀ x ∈ t.root.strings, ' ' ∉ x) (q : List Char) (hq : ' ' ∉ q) (m : Int) :
    ∃ st, t.search q 0 m = some st ∧ (∀ k s, st.result k = some s → s = q) ∧
      (0 < st.i ↔ q ∈ t.root.strings) := by
  have hf := ht.f_eq
  have hdef : ∀ x ∈ t.root.strings, (t.f x q).isSome = true := by
    intro x hx
    rw [hf]
    unfold editdistance_wrapper
    rw [editdistance_eq_dist x q (hblank x hx) hq none]
    rfl
  rw [kdtree.search_eq]
  obtain ⟨st, hst⟩ := kdtree_search_recursive_total t.f q 0 (effective_limit m) t.root
    ⟨fun _ => none, 0, []⟩ hdef
  have hext := kdtree_search_recursive_ext t.f q 0 (effective_limit m) t.root _ st hst
  obtain ⟨-, -, habove, -, hent, -⟩ := hext
  have hsound : ∀ k s, st.result k = some s → s ∈ t.root.strings ∧ s = q := by
    intro k s hk
    by_cases hlt : k < st.i
    · obtain ⟨s', hs', hmem, d, hd, hd0⟩ := hent k (Nat.zero_le _) hlt
      rw [hk] at hs'
      simp only [Option.some.injEq] at hs'
      subst hs'
      rw [hf] at hd
      exact ⟨hmem, editdistance_wrapper_le_zero (hblank s hmem) hq hd hd0⟩
    · rw [habove k (by omega)] at hk
      simp at hk
  refine ⟨st, hst, fun k s hk => (hsound k s hk).2, ?_, ?_⟩
  · intro hpos
    obtain ⟨s, hs, -⟩ := hent 0 (Nat.zero_le _) hpos
    obtain ⟨hmem, heq⟩ := hsound 0 s hs
    rwa [heq] at hmem
  · intro hmem
    have hb := ht.bucketed
    rw [← hf] at hb
    rcases kdtree_search_recursive_exact t.f q (effective_limit m) t.root _ st hst hb hmem
      (fun d hd => by
        rw [hf] at hd
        unfold editdistance_wrapper at hd
        rw [editdistance_self q hq none] at hd
        simp only [Option.some.injEq] at hd
        omega) with h1 | h1
    · simpa using h1
    · have := effective_limit_pos m
      simp only [Nat.cast_zero] at h1
      omega

/-! ## Insertion followed by exact search -/

theorem forLoop_skip {σ : Type} (body : Nat → σ → Option σ) (count k : Nat) (x : σ)
    (h : ∀ k' y, k ≤ k' → body k' y = some y) : forLoop body count k x = some x := by
  induction count generalizing k with
  | zero => rfl
  | succ c ih =>
    simp only [forLoop, h k x (Nat.le_refl k), Option.some_bind]
    exact ih (k + 1) (fun k' y hk => h k' y (by omega))

theorem forLoop_single {σ : Type} (body : Nat → σ → Option σ) (count k k0 : Nat) (x : σ)
    (hk : k ≤ k0) (hk' : k0 < k + count) (h : ∀ k' y, k' ≠ k0 → body k' y = some y) :
    forLoop body count k x = body k0 x := by
  induction count generalizing k with
  | zero => omega
  | succ c ih =>
    simp only [forLoop]
    by_cases hkk : k = k0
    · subst hkk
      cases hb : body k x with
      | none => rfl
      | some y =>
        rw [Option.some_bind]
        exact forLoop_skip body c (k + 1) y (fun k' z hle => h k' z (by omega))
    · rw [h k x hkk, Option.some_bind]
      exact ih (k + 1) (by omega) (by omega)

theorem unlimited_traversal_leaf (f : distance_function) (query s : List Char) (n d : Int)
    (hf : f s query = some d) :
    unlimited_traversal f query n (allocate_kdtree_node s) = some (if d ≤ n then [s] else []) := by
  unfold allocate_kdtree_node
  rw [unlimited_traversal, hf]
  simp only
  apply forLoop_skip
  intro k' y _
  split
  · rw [if_neg (by simp [kdtree_node.nonnull])]
  · rfl

/-- The unlimited traversal of the tree made of a seed `r` and one inserted string `s`,
for the query `s` and `n = 0`. -/
theorem unlimited_traversal_two (f : distance_function) (r s : List Char) (d : Int)
    (hd : 0 ≤ d ∧ d < 16) (hrs : f r s = some d) (hss : f s s = some 0) :
    unlimited_traversal f s 0
      (.node r (Function.update (fun _ => kdtree_node.NULL) ⟨d.toNat, by omega⟩
        (allocate_kdtree_node s)))
      = some ((if d ≤ 0 then [r] else []) ++ [s]) := by
  rw [unlimited_traversal, hrs]
  simp only
  rw [forLoop_single _ 16 0 d.toNat _ (Nat.zero_le _) (by omega)]
  · have hl16 : d.toNat < 16 := by omega
    rw [dif_pos hl16]
    simp only [Function.update_same]
    rw [if_pos ⟨by omega, by omega, rfl⟩, unlimited_traversal_leaf f s s 0 0 hss]
    rfl
  · intro k' y hk'
    split
    · rename_i h16
      have hne : (⟨k', h16⟩ : Fin 16) ≠ ⟨d.toNat, by omega⟩ := by
        intro heq
        exact hk' (Fin.mk.inj heq)
      rw [Function.update_noteq hne, if_neg (by simp [kdtree_node.nonnull])]
    · rfl

/-- C12, counterexample.  Seed "a", insert "a", search("a", 0, result, 4): the seed and
the inserted copy are both returned, two matches. -/
theorem round_trip_counterexample :
    editdistance ['a'] ['a'] none = some 0 ∧
    (((kdtree.new ['a'] editdistance_wrapper).insert ['a']).bind
      (fun t => t.search ['a'] 0 4)).map search_state.entries = some [some ['a'], some ['a']] := by
  decide

/-- C12, amended.  For every seed r and every string s, both without a blank, with
editdistance(r, s) in [0, 16): after the constructor on r and insert(s), the call
search(s, 0, result, m) returns matches that are all equal to s: exactly one when r ≠ s,
and, when r = s, the seed and the inserted copy, two matches unless the effective limit
is 1. -/
theorem round_trip (r s : List Char) (hr : ' ' ∉ r) (hs : ' ' ∉ s) (d : Int)
    (hrs : editdistance_wrapper r s = some d) (hd : 0 ≤ d ∧ d < 16) (m : Int) :
    ∃ t st, (kdtree.new r editdistance_wrapper).insert s = some t ∧
      t.search s 0 m = some st ∧
      st.i = (if r = s then min (effective_limit m).toNat 2 else 1) ∧
      ∀ k, k < st.i → st.result k = some s := by
  have hss : editdistance_wrapper s s = some 0 := editdistance_self s hs none
  have hins : (kdtree.new r editdistance_wrapper).insert s =
      some ⟨.node r (Function.update (fun _ => kdtree_node.NULL) ⟨d.toNat, by omega⟩
        (allocate_kdtree_node s)), editdistance_wrapper⟩ := by
    unfold kdtree.insert kdtree.new
    simp only
    rw [allocate_kdtree_node, kdtree_insert_recursive, hrs]
    simp only [dif_pos hd, kdtree_node.nonnull, Bool.false_eq_true, if_false, Option.map_some']
  have htrav := unlimited_traversal_two editdistance_wrapper r s d hd hrs hss
  have hpos := effective_limit_pos m
  obtain ⟨st, hst, hi, hres⟩ := kdtree_search_recursive_take editdistance_wrapper s 0
    (effective_limit m) _ ⟨fun _ => none, 0, []⟩ [] _ ⟨rfl, fun k => by simp⟩
    (by simp only [List.length_nil, Nat.cast_zero]; omega) htrav
  refine ⟨_, st, hins, by rw [kdtree.search_eq]; exact hst, ?_, ?_⟩
  · rw [hi, List.nil_append, List.length_take]
    by_cases hrs' : r = s
    · subst hrs'
      rw [hss] at hrs
      simp only [Option.some.injEq] at hrs
      subst hrs
      simp
    · have hd0 : ¬ d ≤ 0 := fun h0 => hrs' (editdistance_wrapper_le_zero hr hs hrs h0)
      rw [if_neg hrs', if_neg hd0]
      simp only [List.nil_append, List.length_singleton]
      omega
  · intro k hk
    rw [hres k, List.nil_append]
    rw [hi, List.nil_append] at hk
    have hall : ∀ x ∈ ((if d ≤ 0 then [r] else []) ++ [s]).take (effective_limit m).toNat, x = s := by
      intro x hx
      have hx' := List.mem_of_mem_take hx
      by_cases hd0 : d ≤ 0
      · rw [if_pos hd0] at hx'
        have : r = s := editdistance_wrapper_le_zero hr hs hrs hd0
        subst this
        simpa using hx'
      · rw [if_neg hd0] at hx'
        simpa using hx'
    rw [List.getElem?_eq_getElem hk]
    exact congrArg some (hall _ (List.getElem_mem hk))

/-- C12, amended, at r = "cat", s = "cats". -/
theorem round_trip_witness :
    ∃ t st, (kdtree.new ['c', 'a', 't'] editdistance_wrapper).insert ['c', 'a', 't', 's'] = some t ∧
      t.search ['c', 'a', 't', 's'] 0 4 = some st ∧
      st.i = (if ['c', 'a', 't'] = ['c', 'a', 't', 's'] then min (effective_limit 4).toNat 2 else 1) ∧
      ∀ k, k < st.i → st.result k = some ['c', 'a', 't', 's'] :=
  round_trip ['c', 'a', 't'] ['c', 'a', 't', 's'] (by decide) (by decide) 1 (by decide)
    (by decide) 4

end Spellr
